import Mathlib

/-!
Verification of the lazy DataFrame core of the csv repository.

The Go source (DataFrame, queryState, the sqlOp operations, the SQL
compiler and the result reconciler) is shallowly embedded below.  Go maps
are modelled as association lists whose iteration order is the insertion
order; `map[string]struct{}` sets become duplicate-free string lists; the
`*warningBag` shared pointer becomes an explicit warning list threaded
through the state.  All definitions mirror the Go source line by line.
-/

namespace CsvDF

/-- Scalar values that flow through rows and literals (Go `any` restricted
to the kinds the library produces: NULL, strings, integers, booleans). -/
inductive GoVal where
  | null
  | str (s : String)
  | int (n : Int)
  | boolean (b : Bool)
deriving Repr, DecidableEq, Inhabited

/-- A result row: Go `map[string]any`, modelled as an association list in
insertion order. -/
abbrev Row (α : Type) : Type := List (String × α)

/-- Lookup in an association list (Go map read, first matching key). -/
def rowLookup {α : Type} : Row α → String → Option α
  | [], _ => none
  | (k, v) :: rest, key => if k = key then some v else rowLookup rest key

/-- Go map assignment: replace the value at an existing key in place,
otherwise append the new binding. -/
def rowInsert {α : Type} : Row α → String → α → Row α
  | [], key, v => [(key, v)]
  | (k, w) :: rest, key, v =>
      if k = key then (key, v) :: rest else (k, w) :: rowInsert rest key v

/-- Go map `delete`. -/
def rowErase {α : Type} : Row α → String → Row α
  | [], _ => []
  | (k, w) :: rest, key => if k = key then rowErase rest key else (k, w) :: rowErase rest key

/-- Go's `containsString` helper from the source. -/
def containsString : List String → String → Bool
  | [], _ => false
  | v :: rest, target => if v = target then true else containsString rest target

/-- Insertion into a Go string set (`map[string]struct{}`), keeping
insertion order and no duplicates. -/
def setInsert (l : List String) (k : String) : List String :=
  if containsString l k then l else l ++ [k]

/-! ### String helpers mirroring the Go standard library pieces used -/

/-- ASCII lower-casing (Go `strings.ToLower` restricted to ASCII, which
is all the source's comparisons rely on). -/
def charToLower (c : Char) : Char :=
  if 'A' ≤ c ∧ c ≤ 'Z' then Char.ofNat (c.toNat + 32) else c

/-- Lower-case a string character-wise. -/
def strToLower (s : String) : String :=
  ⟨s.data.map charToLower⟩

/-- Split a name at its last dot, provided the dot exists and is not the
final character: returns (part before the last dot, part after).  This is
the `strings.LastIndex(name, ".")` pattern used by `normalizeColumnName`
and `resolveRowKey`. -/
def splitLastDot (s : String) : Option (String × String) :=
  let rev := s.data.reverse
  let aft := rev.takeWhile (fun c => c ≠ '.')
  if aft.length = rev.length ∨ aft = [] then none
  else some (⟨(rev.drop (aft.length + 1)).reverse⟩, ⟨aft.reverse⟩)

/-- Go `normalizeColumnName`: strip a lower-case qualifier before the last
dot. -/
def normalizeColumnName (name : String) : String :=
  match splitLastDot name with
  | some (pre, aft) => if strToLower pre = pre then aft else name
  | none => name

/-- ASCII whitespace trimmed by Go `strings.TrimSpace` (the Unicode
space characters beyond ASCII are not modelled; no claim depends on
them). -/
def isGoSpace (c : Char) : Bool :=
  c = ' ' ∨ c = '\t' ∨ c = '\n' ∨ c = Char.ofNat 11 ∨ c = Char.ofNat 12 ∨ c = '\r'

/-- Go `strings.TrimSpace`. -/
def trimSpaceGo (s : String) : String :=
  ⟨((s.data.dropWhile isGoSpace).reverse.dropWhile isGoSpace).reverse⟩

/-- Whitespace matched by the RE2 class `\s` ( `\t \n \f \r` and space). -/
def isRE2Space (c : Char) : Bool :=
  c = ' ' ∨ c = '\t' ∨ c = '\n' ∨ c = Char.ofNat 12 ∨ c = '\r'

/-- RE2 `\w`: ASCII word characters. -/
def isWordChar (c : Char) : Bool :=
  c.isAlpha ∨ c.isDigit ∨ c = '_'

/-- Value of a decimal digit string (Go `strconv.Atoi` on a digit-only
string; overflow is irrelevant because every parsed value is compared
against 10). -/
def digitsToNat (ds : List Char) : Nat :=
  ds.foldl (fun n c => n * 10 + (c.toNat - 48)) 0

/-- Go `parseDuplicateKey`: match the regex `^(.+)_([0-9]+)$` (greedy, so
the split is at the last underscore that is followed only by digits) and
accept only values in [1, 10]. -/
def parseDuplicateKey (key : String) : Option (String × Nat) :=
  let rev := key.data.reverse
  let ds := rev.takeWhile Char.isDigit
  if ds = [] then none
  else
    match rev.drop ds.length with
    | '_' :: baseRev =>
        if baseRev = [] then none
        else
          let n := digitsToNat ds.reverse
          if n = 0 ∨ n > 10 then none else some (⟨baseRev.reverse⟩, n)
    | _ => none

/-- First character of a Go identifier as matched by the source's
`identifierRegex` (`[A-Za-z_][A-Za-z0-9_]*`). -/
def isIdentStart (c : Char) : Bool :=
  c.isAlpha ∨ c = '_'

/-- Continuation character of an identifier. -/
def isIdentCont (c : Char) : Bool :=
  c.isAlpha ∨ c.isDigit ∨ c = '_'

/-- Core of Go `identifierRegex.ReplaceAllStringFunc`: rewrite every
maximal identifier-shaped run through `h`, leaving other characters in
place.  `acc` carries the identifier run currently being read. -/
def tokRewrite (h : String → String) : List Char → List Char → List Char
  | acc, [] => match acc with
    | [] => []
    | _ => (h ⟨acc⟩).data
  | acc, c :: cs =>
    match acc with
    | [] =>
        if isIdentStart c then tokRewrite h [c] cs
        else c :: tokRewrite h [] cs
    | _ =>
        if isIdentCont c then tokRewrite h (acc ++ [c]) cs
        else (h ⟨acc⟩).data ++ c :: tokRewrite h [] cs

/-- Go `rewriteExpressionWithOriginalNames` applies, for each rename entry
in order, an identifier-level substitution of the entry's current name by
its original name (skipping no-op and empty entries). -/
def rewriteStep (expr : String) (old new : String) : String :=
  if new = old ∨ new = "" then expr
  else ⟨tokRewrite (fun tok => if tok = new then old else tok) [] expr.data⟩

/-! ### The explicit-join-condition matcher -/

/-- Consume `\w+` (one word character, then the maximal run). -/
def chompW : List Char → Option (List Char)
  | [] => none
  | c :: cs => if isWordChar c then some (cs.dropWhile isWordChar) else none

/-- Consume the optional group `(\.\w+)?`; if the group cannot match, the
input is returned unchanged. -/
def chompDotW (l : List Char) : List Char :=
  match l with
  | c :: cs =>
      if c = '.' then
        match chompW cs with
        | some r => r
        | none => l
      else l
  | [] => l

/-- Go `isExplicitJoinCondition`: the RE2 pattern
`^\w+(\.\w+)?\s*=\s*\w+(\.\w+)?$`. -/
def isExplicitJoinCondition (s : String) : Bool :=
  match chompW s.data with
  | none => false
  | some r1 =>
    match (chompDotW r1).dropWhile isRE2Space with
    | c :: r4 =>
      if c = '=' then
        match chompW (r4.dropWhile isRE2Space) with
        | none => false
        | some r6 => chompDotW r6 = []
      else false
    | [] => false

/-- A non-empty run of RE2 word characters (`\w+`). -/
def WordStr (s : String) : Prop :=
  s.data ≠ [] ∧ ∀ c ∈ s.data, isWordChar c = true

/-- A possibly dot-qualified identifier (`\w+(\.\w+)?`). -/
def QualIdent (s : String) : Prop :=
  WordStr s ∨ ∃ a b, s = a ++ "." ++ b ∧ WordStr a ∧ WordStr b

/-- A (possibly empty) run of RE2 whitespace (`\s*`). -/
def SpaceStr (s : String) : Prop :=
  ∀ c ∈ s.data, isRE2Space c = true

/-- The shape the spec describes: a single binary equality between two
possibly dot-qualified identifiers, with optional whitespace around the
equals sign. -/
def ExplicitShape (t : String) : Prop :=
  ∃ l sl sr r, t = l ++ sl ++ "=" ++ sr ++ r ∧
    QualIdent l ∧ QualIdent r ∧ SpaceStr sl ∧ SpaceStr sr

/-! ### Data model -/

/-- Join kinds. -/
inductive joinType where
  | inner
  | left
  | right
  | full
deriving Repr, DecidableEq, Inhabited

/-- Go `joinClause` (`Type` is spelled `jtype` because `Type` is reserved
in Lean). -/
structure joinClause where
  OtherTable : String
  On : String
  jtype : joinType
  SubQuery : String
  Suffixes : String × String
deriving Repr, DecidableEq, Inhabited

/-- Go `renameEntry`. -/
structure renameEntry where
  old : String
  new : String
deriving Repr, DecidableEq, Inhabited

/-- Go `mutation`. -/
structure mutation where
  Column : String
  Expr : String
deriving Repr, DecidableEq, Inhabited

/-- Go `castClause`. -/
structure castClause where
  Column : String
  DType : String
deriving Repr, DecidableEq, Inhabited

/-- Go `fillNAClause`. -/
structure fillNAClause where
  Column : String
  Value : GoVal
deriving Repr, DecidableEq, Inhabited

/-- Go `sortClause`. -/
structure sortClause where
  Column : String
  Asc : Bool
deriving Repr, DecidableEq, Inhabited

/-- Go `MergeOptions`. -/
structure MergeOptions where
  On : List String
  OnKey : String
  How : String
  Suffixes : String × String
deriving Repr, DecidableEq, Inhabited

/-- Go `queryState`.  `renames` is the `map[string]string` as an
insertion-ordered association list, `drops` the `map[string]struct{}` as a
duplicate-free list, and `warnings` the contents of the shared warning
bag. -/
structure queryState where
  baseTable : String
  selectCols : List String
  filters : List String
  joins : List joinClause
  sorts : List sortClause
  mutations : List mutation
  casts : List castClause
  fillNAs : List fillNAClause
  renames : List (String × String)
  renameOrder : List renameEntry
  drops : List String
  suffixes : String × String
  inlineRenames : Bool
  warnings : List String
deriving Repr, DecidableEq, Inhabited

/-- Go `defaultSuffixes`. -/
def defaultSuffixes : String × String := ("_x", "_y")

/-- Go `newQueryState`. -/
def newQueryState (base : String) (warns : List String) : queryState :=
  { baseTable := base
    selectCols := []
    filters := []
    joins := []
    sorts := []
    mutations := []
    casts := []
    fillNAs := []
    renames := []
    renameOrder := []
    drops := []
    suffixes := defaultSuffixes
    inlineRenames := false
    warnings := warns }

/-- Go `(*warningBag).add` through `queryState.warn`. -/
def warnAdd (q : queryState) (msg : String) : queryState :=
  { q with warnings := q.warnings ++ [msg] }

/-- Go `queryState.resolveOriginalColumn`: walk the rename history
backwards, replacing a current name by the originating name. -/
def resolveOriginalColumn (q : queryState) (name : String) : String :=
  q.renameOrder.reverse.foldl
    (fun current entry => if entry.new = current then entry.old else current)
    (normalizeColumnName name)

/-- Go `queryState.resolveCurrentColumn`: walk the rename history
forwards, replacing an original name by its current name. -/
def resolveCurrentColumn (q : queryState) (name : String) : String :=
  q.renameOrder.foldl
    (fun current entry => if entry.old = current then entry.new else current)
    (normalizeColumnName name)

/-- Go `queryState.columnInSelection`. -/
def columnInSelection (q : queryState) (name : String) : Bool :=
  q.selectCols.isEmpty ||
  containsString q.selectCols name ||
  containsString q.selectCols (resolveCurrentColumn q name) ||
  containsString q.selectCols (resolveOriginalColumn q name)

/-! ### Operations -/

/-- Go `sqlOp`, a closed union of the operation structs (`filterOp`,
`selectOp`, `dropOp`, `renameOp`, `mutateOp`, `sortOp`, `castOp`,
`dropNaOp`, `fillNaOp`, `joinOp`).  A `renameOp`'s `map[string]string` is
carried as an ordered pair list. -/
inductive sqlOp where
  | filter (expr : String)
  | select (cols : List String)
  | drop (cols : List String)
  | rename (mapping : List (String × String))
  | mutate (col expr : String)
  | sort (col : String) (asc : Bool)
  | cast (col dtype : String)
  | dropNa (cols : List String)
  | fillNa (col : String) (value : GoVal)
  | join (aliasName subquery onCond : String) (jt : joinType) (sfx : String × String)
deriving Repr, DecidableEq, Inhabited

/-- Go `filterOp.Apply`. -/
def applyFilter (expr : String) (q : queryState) : queryState :=
  { q with filters := q.filters ++ [expr] }

/-- One step of `selectOp.Apply`: accumulate (columns, lowercase keys seen). -/
def selectStep (acc : List String × List String) (col : String) :
    List String × List String :=
  let name := normalizeColumnName col
  let key := strToLower name
  if containsString acc.2 key then acc else (acc.1 ++ [name], acc.2 ++ [key])

/-- Go `selectOp.Apply`: normalize, de-duplicate case-insensitively
keeping the first occurrence, then replace the projection wholesale. -/
def applySelect (cols : List String) (q : queryState) : queryState :=
  { q with selectCols := (cols.foldl selectStep ([], [])).1 }

/-- The name a `dropOp` actually targets: the normalized name, redirected
through the rename map when the original was renamed (the first two lines
of the Go loop body). -/
def dropTargetName (q : queryState) (name : String) : String :=
  match rowLookup q.renames (normalizeColumnName name) with
  | some dest => dest
  | none => normalizeColumnName name

/-- The per-column body of `dropOp.Apply`'s first loop. -/
def dropStep (q : queryState) (c : String) : queryState :=
  let name := dropTargetName q c
  if q.selectCols ≠ [] ∧ ¬ containsString q.selectCols name then
    warnAdd q ("drop skipped for column " ++ name ++ ": not selected")
  else
    { q with drops := setInsert q.drops name }

/-- Go `dropOp.Apply`. -/
def applyDrop (cols : List String) (q : queryState) : queryState :=
  let q := cols.foldl dropStep q
  if q.selectCols ≠ [] then
    { q with selectCols := q.selectCols.filter (fun col => ¬ containsString q.drops col) }
  else q

/-- The per-pair body of `renameOp.Apply`. -/
def renameStep (q : queryState) (kv : String × String) : queryState :=
  let requestedOld := normalizeColumnName kv.1
  let newCol := normalizeColumnName kv.2
  if containsString q.drops newCol then q
  else
    let origOld := resolveOriginalColumn q requestedOld
    let currentName := resolveCurrentColumn q origOld
    if q.selectCols ≠ [] ∧ ¬ containsString q.selectCols currentName then
      warnAdd q ("rename skipped for column " ++ requestedOld ++ ": not selected")
    else if currentName = newCol then q
    else
      { q with
        renames := rowInsert q.renames origOld newCol
        renameOrder := updateOrAppendEntry q.renameOrder origOld newCol
        selectCols := q.selectCols.map (fun col => if col = currentName then newCol else col) }
where
  /-- Update the first entry with the given original name, else append
  (the `updated` flag with `break` in the Go loop). -/
  updateOrAppendEntry : List renameEntry → String → String → List renameEntry
    | [], o, n => [⟨o, n⟩]
    | e :: rest, o, n =>
        if e.old = o then ⟨o, n⟩ :: rest else e :: updateOrAppendEntry rest o n

/-- Go `renameOp.Apply` (pairs folded in iteration order). -/
def applyRenameOp (mapping : List (String × String)) (q : queryState) : queryState :=
  mapping.foldl renameStep q

/-- Go `rewriteExpressionWithOriginalNames`. -/
def rewriteExpressionWithOriginalNames (expr : String) (entries : List renameEntry) : String :=
  entries.foldl (fun result entry => rewriteStep result entry.old entry.new) expr

/-- Go `mutateOp.Apply`. -/
def applyMutate (col expr : String) (q : queryState) : queryState :=
  let target := normalizeColumnName (resolveCurrentColumn q col)
  let expr2 := rewriteExpressionWithOriginalNames expr q.renameOrder
  let q := { q with mutations := q.mutations ++ [⟨target, expr2⟩] }
  if q.selectCols ≠ [] ∧ ¬ containsString q.selectCols target then
    { q with selectCols := q.selectCols ++ [target] }
  else q

/-- Go `sortOp.Apply`. -/
def applySort (col : String) (asc : Bool) (q : queryState) : queryState :=
  { q with sorts := q.sorts ++ [⟨normalizeColumnName col, asc⟩] }

/-- Go `castOp.Apply`. -/
def applyCast (col dtype : String) (q : queryState) : queryState :=
  let c := resolveOriginalColumn q col
  if ¬ columnInSelection q c ∧ ¬ columnInSelection q col then
    warnAdd q ("cast ignored for column " ++ col ++ ": not selected")
  else
    { q with casts := q.casts ++ [⟨c, dtype⟩] }

/-- Go `dropNaOp.Apply`. -/
def applyDropNa (cols : List String) (q : queryState) : queryState :=
  cols.foldl
    (fun q c => { q with filters := q.filters ++ [resolveOriginalColumn q c ++ " IS NOT NULL"] })
    q

/-- Go `fillNaOp.Apply`. -/
def applyFillNa (col : String) (value : GoVal) (q : queryState) : queryState :=
  let c := resolveOriginalColumn q col
  if ¬ columnInSelection q c ∧ ¬ columnInSelection q col then
    warnAdd q ("fillna ignored for column " ++ col ++ ": not selected")
  else
    { q with fillNAs := q.fillNAs ++ [⟨c, value⟩] }

/-- Go `joinOp.Apply` (a later join's suffix pair overrides the state's
active pair). -/
def applyJoin (aliasName subquery onCond : String) (jt : joinType) (sfx : String × String)
    (q : queryState) : queryState :=
  let q := if sfx ≠ ("", "") then { q with suffixes := sfx } else q
  { q with joins := q.joins ++ [⟨aliasName, onCond, jt, subquery, sfx⟩] }

/-- Dispatch `sqlOp.Apply`. -/
def applyOp (op : sqlOp) (q : queryState) : queryState :=
  match op with
  | .filter expr => applyFilter expr q
  | .select cols => applySelect cols q
  | .drop cols => applyDrop cols q
  | .rename mapping => applyRenameOp mapping q
  | .mutate col expr => applyMutate col expr q
  | .sort col asc => applySort col asc q
  | .cast col dtype => applyCast col dtype q
  | .dropNa cols => applyDropNa cols q
  | .fillNa col value => applyFillNa col value q
  | .join aliasName subquery onCond jt sfx => applyJoin aliasName subquery onCond jt sfx q

/-! ### The pipeline facade -/

/-- Go `filepath.Base` (restricted to forward-slash paths). -/
def pathBase (p : String) : String :=
  if p = "" then "."
  else
    let noSlash := (p.data.reverse.dropWhile (fun c => c = '/')).reverse
    if noSlash = [] then "/"
    else ⟨(noSlash.reverse.takeWhile (fun c => c ≠ '/')).reverse⟩

/-- Cut the final `.ext` suffix of a name, if a dot is present
(`filepath.Ext` + `strings.TrimSuffix`). -/
def cutLastExt (l : List Char) : Option (List Char) :=
  if l.contains '.' then some (((l.reverse.dropWhile (fun c => c ≠ '.')).drop 1).reverse)
  else none

/-- The extension-stripping loop of Go `tableNameFromPath`, with fuel. -/
def stripExts : Nat → List Char → List Char
  | 0, l => l
  | fuel + 1, l =>
      match cutLastExt l with
      | some l2 => stripExts fuel l2
      | none => l

/-- Go `tableNameFromPath`. -/
def tableNameFromPath (path : String) : String :=
  let base := pathBase path
  ⟨stripExts (base.data.length + 1) base.data⟩

/-- Go `DataFrame`: the chainable handle.  The shared `*warningBag` and
`*int` alias counter are carried by value; chaining preserves them. -/
structure DataFrame where
  source : String
  ops : List sqlOp
  err : Option String
  warns : List String
  aliasCounter : Nat
deriving Repr, DecidableEq, Inhabited

/-- Go `NewDataFrame`. -/
def NewDataFrame (path : String) : DataFrame :=
  { source := path, ops := [], err := none, warns := [], aliasCounter := 0 }

/-- Go `DataFrame.withOp`: append one operation, keep everything else. -/
def withOp (df : DataFrame) (op : sqlOp) : DataFrame :=
  { df with ops := df.ops ++ [op] }

/-- Go `DataFrame.buildQueryState`: fold the full operation list over a
fresh state. -/
def buildQueryState (df : DataFrame) : queryState :=
  df.ops.foldl (fun st op => applyOp op st)
    (newQueryState (tableNameFromPath df.source) df.warns)

/-! ### The SQL compiler -/

/-- A single-quote character, used when rendering string literals. -/
def squote : String := ⟨[Char.ofNat 39]⟩

/-- Go `literal`: render a fill value as a SQL literal. -/
def literal (v : GoVal) : String :=
  match v with
  | .null => "NULL"
  | .str s => squote ++ s.replace squote (squote ++ squote) ++ squote
  | .boolean b => if b then "1" else "0"
  | .int n => toString n

/-- Go `joinKeyword`. -/
def joinKeyword (t : joinType) : String :=
  match t with
  | .inner => "INNER JOIN"
  | .left => "LEFT JOIN"
  | .right => "RIGHT JOIN"
  | .full => "FULL OUTER JOIN"

/-- Go `resolveSortColumn`. -/
def resolveSortColumn (q : queryState) (name : String) : String :=
  let col := resolveOriginalColumn q name
  if col = "" then name else col

/-- Go `joinCondition`: trim, keep an explicit binary equality verbatim,
otherwise expand a bare key. -/
def joinCondition (base : String) (j : joinClause) : String :=
  let cond := trimSpaceGo j.On
  if cond = "" then cond
  else if isExplicitJoinCondition cond then cond
  else base ++ "." ++ cond ++ " = " ++ j.OtherTable ++ "." ++ cond

/-- Go `buildSelectExpressions`: the ordered projection list. -/
def buildSelectExpressions (q : queryState) : List String :=
  let exprs := [q.baseTable ++ ".*"]
  let exprs := exprs ++ q.joins.map (fun j => j.OtherTable ++ ".*")
  let exprs := exprs ++ q.casts.map
    (fun c => "CAST(" ++ c.Column ++ " AS " ++ c.DType ++ ") AS " ++ c.Column)
  let exprs := exprs ++ q.fillNAs.map
    (fun f => "IFNULL(" ++ f.Column ++ ", " ++ literal f.Value ++ ") AS " ++ f.Column)
  let exprs := exprs ++ q.mutations.map (fun m => m.Expr ++ " AS " ++ m.Column)
  let exprs := exprs ++
    (if q.inlineRenames then q.renames.map (fun kv => kv.1 ++ " AS " ++ kv.2) else [])
  if exprs = [] then ["*"] else exprs

/-- One JOIN clause of the compiled statement. -/
def joinClauseSQL (base : String) (j : joinClause) : String :=
  " " ++ joinKeyword j.jtype ++
  (if j.SubQuery ≠ "" then " (" ++ j.SubQuery ++ ") AS " ++ j.OtherTable
   else " " ++ j.OtherTable) ++
  " ON " ++ joinCondition base j

/-- Go `compileSQL`. -/
def compileSQL (q : queryState) (limit : Option Nat) : String :=
  let s := "SELECT " ++ String.intercalate ", " (buildSelectExpressions q) ++
    " FROM " ++ q.baseTable
  let s := q.joins.foldl (fun s j => s ++ joinClauseSQL q.baseTable j) s
  let s := if q.filters ≠ [] then s ++ " WHERE " ++ String.intercalate " AND " q.filters else s
  let s := if q.sorts ≠ [] then
      s ++ " ORDER BY " ++ String.intercalate ", "
        (q.sorts.map (fun c => resolveSortColumn q c.Column ++ (if c.Asc then "" else " DESC")))
    else s
  match limit with
  | some n => s ++ " LIMIT " ++ toString n
  | none => s

/-! ### Merge and joins on the facade -/

/-- Go `joinConditionFromKeys`. -/
def joinConditionFromKeys (base other : String) (keys : List String) : String :=
  if keys = [] then ""
  else String.intercalate " AND "
    (keys.map (fun k => base ++ "." ++ k ++ " = " ++ other ++ "." ++ k))

/-- Go `DataFrame.nextAlias` (the shared counter is returned
incremented). -/
def nextAlias (df : DataFrame) (base : String) : String × Nat :=
  (base ++ "_alias_" ++ toString (df.aliasCounter + 1), df.aliasCounter + 1)

/-- Go `DataFrame.joinWithType`: compile the right-hand chain into a
subquery (with inline renames) at chain-construction time and append a
`joinOp`. -/
def joinWithType (df other : DataFrame) (keys : List String) (jt : joinType)
    (suffixes : String × String) : DataFrame :=
  let aliasBase := tableNameFromPath other.source
  if keys = [] then df
  else
    let an := nextAlias df aliasBase
    let subState := other.ops.foldl (fun st op => applyOp op st)
      { newQueryState aliasBase df.warns with inlineRenames := true }
    let subQuery := compileSQL subState none
    let df2 := { df with warns := subState.warnings, aliasCounter := an.2 }
    withOp df2 (.join an.1 subQuery
      (joinConditionFromKeys (tableNameFromPath df.source) an.1 keys) jt suffixes)

/-- Go `MergeOptions.How` resolution. -/
def howToJoinType (how : String) : joinType :=
  let h := strToLower how
  if h = "" ∨ h = "inner" then .inner
  else if h = "left" then .left
  else if h = "right" then .right
  else if h = "outer" ∨ h = "full" then .full
  else .inner

/-- Go `DataFrame.Merge`: eagerly validate the join keys, recording a
deferred planning error when none are given. -/
def Merge (df other : DataFrame) (opts : MergeOptions) : DataFrame :=
  let keys := if opts.On ≠ [] then opts.On
    else if opts.OnKey ≠ "" then [opts.OnKey] else []
  if keys = [] then { df with err := some "merge requires at least one join key" }
  else
    let suffixes := if opts.Suffixes = ("", "") then defaultSuffixes else opts.Suffixes
    joinWithType df other keys (howToJoinType opts.How) suffixes

/-! ### The result reconciler -/

/-- Go `effectiveSuffixes`. -/
def effectiveSuffixes (sfx : String × String) : String × String :=
  if sfx = ("", "") then defaultSuffixes else sfx

/-- One key of the `applyJoinSuffixes` loop: rewrite a positional
duplicate key through the matching join's suffix pair. -/
def suffixStep {α : Type} (joins : List joinClause) (acc : Row α × List String)
    (key : String) : Row α × List String :=
  match parseDuplicateKey key with
  | none => acc
  | some (base, idx) =>
    if joins.length ≤ idx - 1 then acc
    else
      match rowLookup acc.1 key with
      | none => acc
      | some joinVal =>
        let sfx := effectiveSuffixes (joins.getD (idx - 1) default).Suffixes
        let row := match rowLookup acc.1 base with
          | some baseVal => rowInsert acc.1 (base ++ sfx.1) baseVal
          | none => acc.1
        let row := rowInsert row (base ++ sfx.2) joinVal
        let row := rowErase row key
        (row, if acc.2.contains base then acc.2 else acc.2 ++ [base])

/-- Go `applyJoinSuffixes` for one row: iterate over a snapshot of the
keys, then delete every consumed base key. -/
def applyJoinSuffixesRow {α : Type} (joins : List joinClause) (row : Row α) : Row α :=
  let res := (row.map (fun p => p.1)).foldl (suffixStep joins) (row, [])
  res.2.foldl (fun r b => rowErase r b) res.1

/-- Go `applyRename` on one row: copy old-name values to the new name in
entry order, deleting the old key. -/
def applyRenameRow {α : Type} (entries : List renameEntry) (row : Row α) : Row α :=
  entries.foldl
    (fun row entry =>
      match rowLookup row entry.old with
      | some v => rowErase (rowInsert row entry.new v) entry.old
      | none => row)
    row

/-- Suffix test on the character lists (Go `strings.HasSuffix`; the
core `String.endsWith` is position-based and does not reduce well). -/
def strEndsWith (s t : String) : Bool :=
  decide ((s.data.reverse.take t.data.length).reverse = t.data)

/-- Go `resolveRowKey`: exact name, then the unqualified tail of a dotted
name, then the default suffix variants. -/
def resolveRowKey {α : Type} (row : Row α) (name : String) : Option String :=
  let cands := name :: (match splitLastDot name with
    | some (_, aft) => [aft]
    | none => [])
  let hit := cands.find? (fun c => ¬ c = "" ∧ (rowLookup row c).isSome)
  match hit with
  | some c => some c
  | none =>
    if name.data.contains '.' ∨ strEndsWith name "_x" ∨ strEndsWith name "_y" then
      (cands.map (fun b => [b ++ defaultSuffixes.1, b ++ defaultSuffixes.2])).flatten.find?
        (fun c => ¬ c = "" ∧ (rowLookup row c).isSome)
    else none

/-- Go `applyDrops` on one row. -/
def applyDropsRow {α : Type} (drops : List String) (row : Row α) : Row α :=
  drops.foldl
    (fun row col =>
      match resolveRowKey row col with
      | some key => rowErase row key
      | none => row)
    row

/-- One selected column of the projection rebuild: resolve it against the
row and copy the value under the resolved key, failing hard when it
cannot be resolved. -/
def selStep {α : Type} (row : Row α) (acc : Except String (Row α)) (col : String) :
    Except String (Row α) :=
  match acc with
  | .error e => .error e
  | .ok next =>
    match resolveRowKey row col with
    | none => .error ("column " ++ col ++ " not found")
    | some key =>
      match rowLookup row key with
      | some v => .ok (rowInsert next key v)
      | none => .ok next

/-- The projection rebuild at the end of `transformRows`: a fresh row
holding only the resolved selected keys; an unresolvable column is a hard
error. -/
def buildSelectedRow {α : Type} (row : Row α) (cols : List String) :
    Except String (Row α) :=
  cols.foldl (selStep row) (.ok [])

/-- The per-row body of Go `transformRows` (suffix reconciliation, then
renames, drops and the final projection). -/
def transformRow {α : Type} (state : queryState) (row : Row α) : Except String (Row α) :=
  let row := applyJoinSuffixesRow state.joins row
  let row := applyRenameRow state.renameOrder row
  let row := applyDropsRow state.drops row
  if state.selectCols ≠ [] then buildSelectedRow row state.selectCols
  else .ok row

/-- Go `transformRows`: stop at the first failing row. -/
def transformRows {α : Type} (state : queryState) : List (Row α) → Except String (List (Row α))
  | [] => .ok []
  | r :: rest =>
    match transformRow state r with
    | .error e => .error e
    | .ok r2 =>
      match transformRows state rest with
      | .error e => .error e
      | .ok rs => .ok (r2 :: rs)

/-! ### The scanner's duplicate-column numbering -/

/-- The column-resolution loop of Go `scanAll`: the first occurrence of a
name keeps the bare name, the k-th repeat becomes `name_k`. -/
def scanResolveColumns (cols : List String) : List String :=
  (cols.foldl
    (fun (acc : List String × Row Nat) col =>
      let c := (rowLookup acc.2 col).getD 0
      (acc.1 ++ [if 0 < c then col ++ "_" ++ toString c else col],
       rowInsert acc.2 col (c + 1)))
    ([], [])).1

/-! ### Materialization -/

/-- Go `DataFrame.execute`, with the external engine (filesql open +
query + `scanAll`) abstracted as an oracle from the compiled SQL text to
scanned rows.  A deferred planning error short-circuits before any state
folding or compilation. -/
def executeModel {α : Type} (df : DataFrame) (limit : Option Nat)
    (engine : String → Except String (List (Row α))) : Except String (List (Row α)) :=
  match df.err with
  | some e => .error e
  | none =>
    let state := buildQueryState df
    match engine (compileSQL state limit) with
    | .error e => .error e
    | .ok rows => transformRows state rows

/-! ### Derived notions used to state the claims -/

/-- A column is excluded by the established projection when the
projection is non-empty and contains the column under none of the
identities the operations consult (raw, normalized, drop-redirected,
original, current, and their compositions). -/
def excludedFromSelection (q : queryState) (name : String) : Prop :=
  q.selectCols ≠ [] ∧
  name ∉ q.selectCols ∧
  normalizeColumnName name ∉ q.selectCols ∧
  dropTargetName q name ∉ q.selectCols ∧
  resolveOriginalColumn q name ∉ q.selectCols ∧
  resolveCurrentColumn q name ∉ q.selectCols ∧
  resolveCurrentColumn q (resolveOriginalColumn q name) ∉ q.selectCols ∧
  resolveOriginalColumn q (resolveOriginalColumn q name) ∉ q.selectCols

instance (q : queryState) (name : String) :
    Decidable (excludedFromSelection q name) := by
  unfold excludedFromSelection; infer_instance

/-- A state with the projection `["c"]` and nothing else. -/
def exampleSelState : queryState :=
  { newQueryState "t" [] with selectCols := ["c"] }

/-- The chain `NewDataFrame("t").Drop("b").Select("c")`. -/
def exampleDropSelDF : DataFrame :=
  { source := "t", ops := [.drop ["b"], .select ["c"]],
    err := none, warns := [], aliasCounter := 0 }

/-- The chain `NewDataFrame("t").Drop("b").Select("c").Rename({"a": "b"})`. -/
def exampleDropSelRenameDF : DataFrame :=
  { source := "t", ops := [.drop ["b"], .select ["c"], .rename [("a", "b")]],
    err := none, warns := [], aliasCounter := 0 }

/-- A key is treated as a positional duplicate by `applyJoinSuffixes`
exactly when it parses as `base_i` with `i` in [1, 10] and `i` not
exceeding the number of declared joins. -/
def eligibleKey (joins : List joinClause) (key : String) : Prop :=
  match parseDuplicateKey key with
  | none => False
  | some (_, idx) => idx - 1 < joins.length

instance (joins : List joinClause) (key : String) : Decidable (eligibleKey joins key) := by
  unfold eligibleKey
  cases parseDuplicateKey key with
  | none => exact inferInstanceAs (Decidable False)
  | some p => exact inferInstanceAs (Decidable (_ < _))

/-- Specification-side rendering of the scanner's duplicate-column
numbering: given the already-processed prefix, the next column keeps its
bare name on first occurrence and gains `_k` on its k-th repeat. -/
def specList (pre : List String) : List String → List String
  | [] => []
  | c :: cs =>
      (if pre.count c = 0 then c else c ++ "_" ++ toString (pre.count c)) ::
        specList (pre ++ [c]) cs

/-- Forget the warning-bag contents of a state; two states equal after
`stripWarn` agree on everything the compiler and reconciler read. -/
def stripWarn (q : queryState) : queryState := { q with warnings := [] }

/-- A mutation expression decomposed into identifier tokens and
separator characters, the shape over which the identifier rewriter is
specified. -/
inductive Piece where
  | ident (s : String)
  | sym (c : Char)
deriving Repr, DecidableEq

/-- Concatenate pieces back into the character stream. -/
def renderPiecesData : List Piece → List Char
  | [] => []
  | .ident s :: rest => s.data ++ renderPiecesData rest
  | .sym c :: rest => c :: renderPiecesData rest

/-- Concatenate pieces back into the expression string. -/
def renderPieces (ps : List Piece) : String :=
  ⟨renderPiecesData ps⟩

/-- A non-empty string that the identifier regex matches in full. -/
def isIdentString (s : String) : Bool :=
  match s.data with
  | [] => false
  | c :: cs => isIdentStart c && cs.all isIdentCont

/-- A well-formed decomposition: identifier pieces are identifiers, no
two identifier pieces are adjacent (they would merge), and separator
characters cannot extend an identifier. -/
def validPieces : List Piece → Bool
  | [] => true
  | .sym c :: rest => !(isIdentCont c) && validPieces rest
  | .ident _ :: .ident _ :: _ => false
  | .ident s :: rest => isIdentString s && validPieces rest

/-- Apply a token-level substitution to one piece. -/
def pieceSub (f : String → String) : Piece → Piece
  | .ident s => .ident (f s)
  | .sym c => .sym c

/-- The substitution performed by one pass of the expression rewriter
at the token level. -/
def substEntry (e : renameEntry) (t : String) : String :=
  if e.new = e.old ∨ e.new = "" then t
  else if t = e.new then e.old else t

/-- All rewriter passes, applied to a single token in entry order. -/
def chainSubst (entries : List renameEntry) (t : String) : String :=
  entries.foldl (fun t e => substEntry e t) t

/-- Whether an entry actively substitutes the token `t`. -/
def subActive (t : String) (e : renameEntry) : Bool :=
  if e.new = t ∧ ¬ e.new = e.old ∧ ¬ e.new = "" then true else false

/-- The claim-side token substitution: an identifier equal to the first
matching entry's current name becomes that entry's original name. -/
def subOriginal (entries : List renameEntry) (t : String) : String :=
  match entries.find? (subActive t) with
  | some e => e.old
  | none => t

/-- The chain `NewDataFrame("t").Rename({"a": "b"})`. -/
def exampleRenameDF : DataFrame :=
  { source := "t", ops := [.rename [("a", "b")]], err := none, warns := [], aliasCounter := 0 }

/-- The chain `NewDataFrame("t").Rename({"a": "b"}).Rename({"c": "a"})`. -/
def exampleChainRenameDF : DataFrame :=
  { source := "t", ops := [.rename [("a", "b")], .rename [("c", "a")]],
    err := none, warns := [], aliasCounter := 0 }

/-! ### Helper lemmas -/

theorem takeWhile_all {α : Type} (p : α → Bool) (l : List α)
    (h : ∀ a ∈ l, p a = true) : l.takeWhile p = l := by
  induction l with
  | nil => rfl
  | cons a rest ih =>
    have ha := h a (List.mem_cons_self a rest)
    have ih2 := ih (fun b hb => h b (List.mem_cons_of_mem a hb))
    simp [List.takeWhile_cons, ha, ih2]

theorem filter_all_true {α : Type} (p : α → Bool) (l : List α)
    (h : ∀ a ∈ l, p a = true) : l.filter p = l := by
  induction l with
  | nil => rfl
  | cons a rest ih =>
    have ha := h a (List.mem_cons_self a rest)
    have ih2 := ih (fun b hb => h b (List.mem_cons_of_mem a hb))
    simp [List.filter_cons, ha, ih2]

theorem splitLastDot_aft_no_dot (s pre aft : String)
    (h : splitLastDot s = some (pre, aft)) : ∀ c ∈ aft.data, c ≠ '.' := by
  simp only [splitLastDot] at h
  split at h
  · exact absurd h (by simp)
  · rename_i hcond
    simp only [Option.some.injEq, Prod.mk.injEq] at h
    intro c hc
    have : c ∈ s.data.reverse.takeWhile (fun c => c ≠ '.') := by
      rw [← h.2] at hc
      simpa using hc
    have := List.mem_takeWhile_imp this
    simpa using this

theorem splitLastDot_none_of_no_dot (s : String) (h : ∀ c ∈ s.data, c ≠ '.') :
    splitLastDot s = none := by
  simp only [splitLastDot]
  rw [takeWhile_all _ _ (by intro a ha; simpa using h a (List.mem_reverse.mp ha))]
  simp

theorem normalize_idem (x : String) :
    normalizeColumnName (normalizeColumnName x) = normalizeColumnName x := by
  cases h : splitLastDot x with
  | none =>
    have hx : normalizeColumnName x = x := by unfold normalizeColumnName; rw [h]
    rw [hx]; exact hx
  | some pa =>
    obtain ⟨pre, aft⟩ := pa
    by_cases hl : strToLower pre = pre
    · have hx : normalizeColumnName x = aft := by
        unfold normalizeColumnName; rw [h]; simp [hl]
      rw [hx]
      unfold normalizeColumnName
      rw [splitLastDot_none_of_no_dot aft (splitLastDot_aft_no_dot x pre aft h)]
    · have hx : normalizeColumnName x = x := by
        unfold normalizeColumnName; rw [h]; simp [hl]
      rw [hx]; exact hx

theorem resolveOriginal_normalize (q : queryState) (x : String) :
    resolveOriginalColumn q (normalizeColumnName x) = resolveOriginalColumn q x := by
  unfold resolveOriginalColumn
  rw [normalize_idem]

theorem resolveCurrent_normalize (q : queryState) (x : String) :
    resolveCurrentColumn q (normalizeColumnName x) = resolveCurrentColumn q x := by
  unfold resolveCurrentColumn
  rw [normalize_idem]

theorem containsString_iff (l : List String) (t : String) :
    containsString l t = true ↔ t ∈ l := by
  induction l with
  | nil => simp [containsString]
  | cons v rest ih =>
    by_cases h : v = t
    · subst h; simp [containsString]
    · simp [containsString, h, ih, Ne.symm h]

theorem containsString_eq_false (l : List String) (t : String) (h : t ∉ l) :
    containsString l t = false := by
  cases hc : containsString l t with
  | false => rfl
  | true => exact absurd ((containsString_iff _ _).mp hc) h

theorem foldlOrig_const (entries : List renameEntry) (cur : String)
    (h : ∀ e ∈ entries, e.new ≠ cur) :
    entries.foldl (fun current entry => if entry.new = current then entry.old else current) cur
      = cur := by
  induction entries with
  | nil => rfl
  | cons e es ih =>
    simp only [List.foldl_cons]
    rw [if_neg (h e (List.mem_cons_self e es))]
    exact ih (fun e2 he2 => h e2 (List.mem_cons_of_mem e he2))

theorem foldlCur_const (entries : List renameEntry) (cur : String)
    (h : ∀ e ∈ entries, e.old ≠ cur) :
    entries.foldl (fun current entry => if entry.old = current then entry.new else current) cur
      = cur := by
  induction entries with
  | nil => rfl
  | cons e es ih =>
    simp only [List.foldl_cons]
    rw [if_neg (h e (List.mem_cons_self e es))]
    exact ih (fun e2 he2 => h e2 (List.mem_cons_of_mem e he2))

/-! ### C2 -/

/-- C2 (amended): a name that appears in no rename entry resolves, through
both directions of the rename chain, to its qualifier-normalized form; in
particular a name untouched by `normalizeColumnName` (any undotted name)
is returned unchanged by both resolvers. -/
theorem claim2_unrenamed_resolution (q : queryState) (name : String)
    (h : ∀ e ∈ q.renameOrder,
      e.old ≠ normalizeColumnName name ∧ e.new ≠ normalizeColumnName name) :
    resolveOriginalColumn q name = normalizeColumnName name ∧
    resolveCurrentColumn q name = normalizeColumnName name ∧
    (normalizeColumnName name = name →
      resolveOriginalColumn q name = name ∧ resolveCurrentColumn q name = name) := by
  have h1 : resolveOriginalColumn q name = normalizeColumnName name := by
    apply foldlOrig_const
    intro e he
    exact (h e (List.mem_reverse.mp he)).2
  have h2 : resolveCurrentColumn q name = normalizeColumnName name := by
    apply foldlCur_const
    intro e he
    exact (h e he).1
  exact ⟨h1, h2, fun hid => ⟨h1.trans hid, h2.trans hid⟩⟩

/-- C2 counterexample: the state built by `NewDataFrame` has an empty
rename history, so the dotted name `t.col` appears in no rename entry, yet
both resolvers return `col`, not the name unchanged (resolution first
strips a lower-case table qualifier). -/
theorem claim2_counterexample :
    (newQueryState "t" []).renameOrder = [] ∧
    resolveOriginalColumn (newQueryState "t" []) "t.col" = "col" ∧
    resolveCurrentColumn (newQueryState "t" []) "t.col" = "col" ∧
    "col" ≠ "t.col" := by
  refine ⟨rfl, by decide, by decide, by decide⟩

/-- C2 witness: the amended theorem applied to a rename-free state and the
plain name `age`. -/
theorem claim2_witness :
    resolveOriginalColumn (newQueryState "t" []) "age" = "age" ∧
    resolveCurrentColumn (newQueryState "t" []) "age" = "age" := by
  have h := claim2_unrenamed_resolution (newQueryState "t" []) "age" (by simp [newQueryState])
  exact h.2.2 (by decide)

/-! ### C4 -/

theorem foldl_strcat_extend {β : Type} (l : List β) (f : β → String) :
    ∀ s : String, ∃ t, l.foldl (fun a b => a ++ f b) s = s ++ t := by
  induction l with
  | nil => intro s; exact ⟨"", by simp⟩
  | cons x xs ih =>
    intro s
    obtain ⟨t, ht⟩ := ih (s ++ f x)
    exact ⟨f x ++ t, by simp only [List.foldl_cons, ht, String.append_assoc]⟩

theorem exists_ext_append (s0 a b : String) (h : ∃ t : String, a = s0 ++ t) :
    ∃ t, a ++ b = s0 ++ t := by
  obtain ⟨t, ht⟩ := h
  exact ⟨t ++ b, by rw [ht, String.append_assoc]⟩

theorem exists_ext_ite (s0 : String) (c : Prop) [Decidable c] (a b : String)
    (ha : ∃ t, a = s0 ++ t) (hb : ∃ t, b = s0 ++ t) :
    ∃ t, (if c then a else b) = s0 ++ t := by
  by_cases hc : c
  · rw [if_pos hc]; exact ha
  · rw [if_neg hc]; exact hb

/-- C4: the compiled projection lists its expressions in the fixed order
base-table star, joined-table stars in join order, casts, fill-null
rewrites, mutations, and (only in inline-rename mode) the renames; the
compiled statement embeds exactly that list after `SELECT`. -/
theorem claim4_projection_order (q : queryState) (limit : Option Nat) :
    buildSelectExpressions q =
      [q.baseTable ++ ".*"] ++
      q.joins.map (fun j => j.OtherTable ++ ".*") ++
      q.casts.map (fun c => "CAST(" ++ c.Column ++ " AS " ++ c.DType ++ ") AS " ++ c.Column) ++
      q.fillNAs.map
        (fun f => "IFNULL(" ++ f.Column ++ ", " ++ literal f.Value ++ ") AS " ++ f.Column) ++
      q.mutations.map (fun m => m.Expr ++ " AS " ++ m.Column) ++
      (if q.inlineRenames then q.renames.map (fun kv => kv.1 ++ " AS " ++ kv.2) else []) ∧
    ∃ rest, compileSQL q limit =
      "SELECT " ++ String.intercalate ", " (buildSelectExpressions q) ++
        " FROM " ++ q.baseTable ++ rest := by
  constructor
  · simp [buildSelectExpressions]
  · simp only [compileSQL]
    obtain ⟨t1, ht1⟩ := foldl_strcat_extend q.joins (joinClauseSQL q.baseTable)
      ("SELECT " ++ String.intercalate ", " (buildSelectExpressions q) ++ " FROM " ++ q.baseTable)
    rw [ht1]
    rcases limit with _ | n <;>
      repeat first
        | exact ⟨t1, rfl⟩
        | apply exists_ext_append
        | apply exists_ext_ite

/-! ### C1 -/

/-- C1 (amended): an operation on a column excluded by the established
non-empty projection never hard-fails and leaves the schema-determining
state (projection, renames, drops, casts, fill-null list) unchanged.
Cast and FillNA always record one warning; Drop records one warning and,
when no already-dropped name sits in the projection, changes nothing else
(in general it re-filters previously dropped names out of the
projection); Rename records one warning unless the new name is already a
drop target, in which case the pair is skipped silently with no warning
and no state change. -/
theorem claim1_leniency (q : queryState) (name newName dtype : String) (value : GoVal)
    (hex : excludedFromSelection q name) :
    (∃ m, applyCast name dtype q = { q with warnings := q.warnings ++ [m] }) ∧
    (∃ m, applyFillNa name value q = { q with warnings := q.warnings ++ [m] }) ∧
    ((∀ c ∈ q.selectCols, c ∉ q.drops) →
      ∃ m, applyDrop [name] q = { q with warnings := q.warnings ++ [m] }) ∧
    (normalizeColumnName newName ∉ q.drops →
      ∃ m, applyRenameOp [(name, newName)] q = { q with warnings := q.warnings ++ [m] }) ∧
    (normalizeColumnName newName ∈ q.drops →
      applyRenameOp [(name, newName)] q = q) := by
  obtain ⟨hne, h1, h2, h3, h4, h5, h6, h7⟩ := hex
  have hemp : q.selectCols.isEmpty = false := by
    cases hsel : q.selectCols with
    | nil => exact absurd hsel hne
    | cons a l => rfl
  have hCS : ∀ t, t ∉ q.selectCols → containsString q.selectCols t = false := by
    intro t ht
    cases hc : containsString q.selectCols t with
    | false => rfl
    | true => exact absurd ((containsString_iff _ _).mp hc) ht
  have hsel1 : columnInSelection q name = false := by
    simp [columnInSelection, hemp, hCS _ h1, hCS _ h5, hCS _ h4]
  have hsel2 : columnInSelection q (resolveOriginalColumn q name) = false := by
    simp [columnInSelection, hemp, hCS _ h4, hCS _ h6, hCS _ h7]
  refine ⟨?_, ?_, ?_, ?_, ?_⟩
  · refine ⟨"cast ignored for column " ++ name ++ ": not selected", ?_⟩
    simp only [applyCast]
    rw [if_pos (by simp [hsel1, hsel2])]
    rfl
  · refine ⟨"fillna ignored for column " ++ name ++ ": not selected", ?_⟩
    simp only [applyFillNa]
    rw [if_pos (by simp [hsel1, hsel2])]
    rfl
  · intro hdisj
    refine ⟨"drop skipped for column " ++ dropTargetName q name ++ ": not selected", ?_⟩
    have hstep : dropStep q name = warnAdd q
        ("drop skipped for column " ++ dropTargetName q name ++ ": not selected") := by
      simp only [dropStep]
      rw [if_pos ⟨hne, by simp [hCS _ h3]⟩]
    simp only [applyDrop, List.foldl_cons, List.foldl_nil, hstep, warnAdd]
    rw [if_pos hne]
    have hfil : (q.selectCols.filter fun col => ¬ containsString q.drops col)
        = q.selectCols := by
      apply filter_all_true
      intro a ha
      have : a ∉ q.drops := hdisj a ha
      simp [containsString_eq_false q.drops a this]
    simp [hfil]
    intro a ha
    exact containsString_eq_false q.drops a (hdisj a ha)
  · intro hnd
    refine ⟨"rename skipped for column " ++ normalizeColumnName name ++ ": not selected", ?_⟩
    simp only [applyRenameOp, List.foldl_cons, List.foldl_nil, renameStep]
    rw [if_neg (by simp [containsString_eq_false q.drops _ hnd]), resolveOriginal_normalize]
    rw [if_pos ⟨hne, by simp [hCS _ h6]⟩]
    rfl
  · intro hnd
    simp only [applyRenameOp, List.foldl_cons, List.foldl_nil, renameStep]
    rw [if_pos (by simp [(containsString_iff _ _).mpr hnd])]

/-- C1 counterexample: in the reachable chain
`NewDataFrame("t").Drop("b").Select("c")`, the column `a` is excluded by
the established non-empty projection `["c"]`, yet
`Rename({"a": "b"})` records no warning at all (the pair is skipped
silently because its target `b` is already a drop target), contradicting
the claim that such an operation records at least one warning. -/
theorem claim1_counterexample :
    (buildQueryState exampleDropSelDF).selectCols = ["c"] ∧
    excludedFromSelection (buildQueryState exampleDropSelDF) "a" ∧
    applyRenameOp [("a", "b")] (buildQueryState exampleDropSelDF) =
      buildQueryState exampleDropSelDF ∧
    (buildQueryState exampleDropSelRenameDF).warnings = [] := by
  exact ⟨by decide, by decide, by decide, by decide⟩

/-- C1 witness: the amended theorem applied to the projection `["c"]`
with the excluded column `a`. -/
theorem claim1_witness :
    excludedFromSelection exampleSelState "a" ∧
    (∃ m, applyCast "a" "INTEGER" exampleSelState =
      { exampleSelState with warnings := exampleSelState.warnings ++ [m] }) ∧
    (∃ m, applyDrop ["a"] exampleSelState =
      { exampleSelState with warnings := exampleSelState.warnings ++ [m] }) ∧
    (∃ m, applyRenameOp [("a", "z")] exampleSelState =
      { exampleSelState with warnings := exampleSelState.warnings ++ [m] }) := by
  have hex : excludedFromSelection exampleSelState "a" := by decide
  have h := claim1_leniency exampleSelState "a" "z" "INTEGER" .null hex
  exact ⟨hex, h.1, h.2.2.1 (by decide), h.2.2.2.1 (by decide)⟩

/-! ### C7 -/

/-- C7: a `Merge` given neither `On` keys nor an `OnKey` records the
deferred planning error on the handle; every materialization of a handle
carrying a deferred error returns exactly that error — for every engine
oracle, so nothing is folded, compiled or executed — with no row set; and
chaining further operations preserves the deferred error. -/
theorem claim7_deferred_error_replay :
    (∀ df other opts, opts.On = [] → opts.OnKey = "" →
      Merge df other opts = { df with err := some "merge requires at least one join key" }) ∧
    (∀ (α : Type) (df : DataFrame) (e : String) (limit : Option Nat)
      (engine : String → Except String (List (Row α))),
      df.err = some e → executeModel df limit engine = .error e) ∧
    (∀ df op, (withOp df op).err = df.err) := by
  refine ⟨?_, ?_, ?_⟩
  · intro df other opts h1 h2
    simp [Merge, h1, h2]
  · intro α df e limit engine h
    simp [executeModel, h]
  · intro df op
    rfl

/-- C7 witness: a concrete key-less merge and a concrete replay. -/
theorem claim7_witness :
    Merge (NewDataFrame "a.csv") (NewDataFrame "b.csv")
        { On := [], OnKey := "", How := "", Suffixes := ("", "") } =
      { NewDataFrame "a.csv" with err := some "merge requires at least one join key" } ∧
    executeModel (α := GoVal)
        { source := "a.csv", ops := [], err := some "boom", warns := [], aliasCounter := 0 }
        none (fun _ => .ok []) = .error "boom" := by
  have h := claim7_deferred_error_replay
  exact ⟨h.1 (NewDataFrame "a.csv") (NewDataFrame "b.csv")
      { On := [], OnKey := "", How := "", Suffixes := ("", "") } rfl rfl,
    h.2.1 GoVal
      { source := "a.csv", ops := [], err := some "boom", warns := [], aliasCounter := 0 }
      "boom" none (fun _ => .ok []) rfl⟩

/-! ### C10 and C3: the positional duplicate-key convention -/

theorem string_data_ne (t : String) (ht : t ≠ "") : t.data ≠ [] := by
  intro h
  exact ht (show t = "" from by cases t; simp_all)

theorem string_append_ne (s t : String) (ht : t ≠ "") : s ++ t ≠ s := by
  intro h
  have hd : s.data ++ t.data = s.data := congrArg String.data h
  have : t.data = [] := by
    have := congrArg List.length hd
    simp at this
    exact List.length_eq_zero.mp this
  exact string_data_ne t ht this

theorem parseDuplicateKey_append (base : String) (ds : List Char) (hb : base ≠ "")
    (hne : ds ≠ []) (hdig : ∀ c ∈ ds, c.isDigit = true)
    (h0 : digitsToNat ds ≠ 0) (h10 : digitsToNat ds ≤ 10) :
    parseDuplicateKey (base ++ ⟨'_' :: ds⟩) = some (base, digitsToNat ds) := by
  have hdata : (base ++ (⟨'_' :: ds⟩ : String)).data.reverse =
      ds.reverse ++ '_' :: base.data.reverse := by
    show (base.data ++ '_' :: ds).reverse = _
    rw [List.reverse_append, List.reverse_cons, List.append_assoc, List.singleton_append]
  have htake : ((base ++ (⟨'_' :: ds⟩ : String)).data.reverse.takeWhile Char.isDigit) =
      ds.reverse := by
    rw [hdata, List.takeWhile_append_of_pos (fun c hc => hdig c (List.mem_reverse.mp hc))]
    simp [List.takeWhile_cons]
  have hdrop : ((base ++ (⟨'_' :: ds⟩ : String)).data.reverse.drop ds.reverse.length) =
      '_' :: base.data.reverse := by
    rw [hdata, List.drop_left]
  simp only [parseDuplicateKey, htake, hdrop]
  rw [if_neg (by simp [hne])]
  rw [if_neg (by simp [string_data_ne base hb])]
  rw [List.reverse_reverse]
  rw [if_neg (by omega)]
  simp [List.reverse_reverse]

theorem parse_roundtrip (base : String) (hb : base ≠ "") (k : Nat)
    (h1 : 1 ≤ k) (h10 : k ≤ 10) :
    parseDuplicateKey (base ++ "_" ++ toString k) = some (base, k) := by
  have happ : base ++ "_" ++ toString k = base ++ (⟨'_' :: (toString k).data⟩ : String) := by
    rw [String.append_assoc]; rfl
  rw [happ]
  interval_cases k <;>
    (rw [parseDuplicateKey_append base _ hb (by decide) (by decide) (by decide) (by decide)]
     simp only [Option.some.injEq, Prod.mk.injEq]
     exact ⟨trivial, by decide⟩)

theorem rowLookup_insert_self {α : Type} (r : Row α) (k : String) (v : α) :
    rowLookup (rowInsert r k v) k = some v := by
  induction r with
  | nil => simp [rowInsert, rowLookup]
  | cons p rest ih =>
    by_cases h : p.1 = k
    · simp [rowInsert, rowLookup, h]
    · simp [rowInsert, rowLookup, h, ih]

theorem rowLookup_insert_ne {α : Type} (r : Row α) (k k2 : String) (v : α) (h : k2 ≠ k) :
    rowLookup (rowInsert r k v) k2 = rowLookup r k2 := by
  induction r with
  | nil => simp [rowInsert, rowLookup, Ne.symm h]
  | cons p rest ih =>
    by_cases hp : p.1 = k
    · simp [rowInsert, rowLookup, hp, Ne.symm h]
    · by_cases hp2 : p.1 = k2
      · simp [rowInsert, rowLookup, hp, hp2, h]
      · simp [rowInsert, rowLookup, hp, hp2, ih]

theorem scan_fold_spec (cols : List String) :
    ∀ (out : List String) (counts : Row Nat) (pre : List String),
    (∀ name, (rowLookup counts name).getD 0 = pre.count name) →
    (cols.foldl
      (fun (acc : List String × Row Nat) col =>
        let c := (rowLookup acc.2 col).getD 0
        (acc.1 ++ [if 0 < c then col ++ "_" ++ toString c else col],
         rowInsert acc.2 col (c + 1)))
      (out, counts)).1 = out ++ specList pre cols := by
  induction cols with
  | nil => intro out counts pre _; simp [specList]
  | cons c cs ih =>
    intro out counts pre hinv
    simp only [List.foldl_cons, specList]
    have hc : (rowLookup counts c).getD 0 = pre.count c := hinv c
    have hnext : ∀ name,
        (rowLookup (rowInsert counts c (pre.count c + 1)) name).getD 0 =
          (pre ++ [c]).count name := by
      intro name
      by_cases h : name = c
      · subst h
        rw [rowLookup_insert_self]
        simp [List.count_append]
      · rw [rowLookup_insert_ne _ _ _ _ h]
        rw [hinv name]
        simp [List.count_append, List.count_singleton, Ne.symm h]
    rw [hc]
    have := ih (out ++ [if 0 < pre.count c then c ++ "_" ++ toString (pre.count c) else c])
      (rowInsert counts c (pre.count c + 1)) (pre ++ [c]) hnext
    rw [this]
    by_cases h0 : pre.count c = 0
    · simp [h0]
    · have : 0 < pre.count c := Nat.pos_of_ne_zero h0
      simp [this, h0, Nat.pos_iff_ne_zero]

theorem specList_get (cols : List String) :
    ∀ (pre : List String) (i : Nat),
    (specList pre cols)[i]? = (cols[i]?).map (fun col =>
      if (pre ++ cols.take i).count col = 0 then col
      else col ++ "_" ++ toString ((pre ++ cols.take i).count col)) := by
  induction cols with
  | nil => intro pre i; simp [specList]
  | cons c cs ih =>
    intro pre i
    cases i with
    | zero => simp [specList]
    | succ j =>
      simp only [specList, List.getElem?_cons_succ, List.take_succ_cons]
      rw [ih (pre ++ [c]) j]
      have : (pre ++ [c]) ++ cs.take j = pre ++ (c :: cs.take j) := by
        simp [List.append_assoc]
      rw [this]

/-- C10: the scanner keys duplicate result columns positionally — the
first occurrence of a name keeps the bare name and the k-th subsequent
occurrence becomes `name_k` — and, for k in the reconciler's eligible
range [1, 10], `parseDuplicateKey` maps `name_k` back to exactly
(name, k). -/
theorem claim10_scan_duplicate_numbering :
    (∀ (cols : List String) (i : Nat),
      (scanResolveColumns cols)[i]? = (cols[i]?).map (fun col =>
        if (cols.take i).count col = 0 then col
        else col ++ "_" ++ toString ((cols.take i).count col))) ∧
    (∀ (base : String) (k : Nat), base ≠ "" → 1 ≤ k → k ≤ 10 →
      parseDuplicateKey (base ++ "_" ++ toString k) = some (base, k)) := by
  constructor
  · intro cols i
    have h := scan_fold_spec cols [] [] [] (by intro name; simp [rowLookup])
    simp only [scanResolveColumns, h, List.nil_append]
    exact specList_get cols [] i
  · intro base k hb h1 h10
    exact parse_roundtrip base hb k h1 h10

/-- C10 witness: two duplicate `id` columns and the parse round-trip at
`id_1`. -/
theorem claim10_witness :
    parseDuplicateKey ("id" ++ "_" ++ toString 1) = some ("id", 1) ∧
    (scanResolveColumns ["id", "id"])[1]? = some ("id" ++ "_" ++ toString 1) := by
  constructor
  · exact claim10_scan_duplicate_numbering.2 "id" 1 (by decide) (by decide) (by decide)
  · rw [claim10_scan_duplicate_numbering.1 ["id", "id"] 1]
    decide

theorem string_ne_empty_of_data (t : String) (h : t.data ≠ []) : t ≠ "" := by
  intro ht
  rw [ht] at h
  exact h rfl

theorem suffix_fold_id {α : Type} (joins : List joinClause) :
    ∀ (keys : List String) (acc : Row α × List String),
    (∀ k ∈ keys, ¬ eligibleKey joins k) → keys.foldl (suffixStep joins) acc = acc := by
  intro keys
  induction keys with
  | nil => intro acc _; rfl
  | cons k ks ih =>
    intro acc hk
    have hk1 := hk k (List.mem_cons_self k ks)
    have hstep : suffixStep joins acc k = acc := by
      cases hp : parseDuplicateKey k with
      | none => simp [suffixStep, hp]
      | some p =>
        obtain ⟨b, idx⟩ := p
        have hle : joins.length ≤ idx - 1 := by
          have : ¬ (idx - 1 < joins.length) := by simpa [eligibleKey, hp] using hk1
          omega
        simp [suffixStep, hp, Nat.not_lt.mpr hle]
    simp only [List.foldl_cons, hstep]
    exact ih acc (fun k2 hk2 => hk k2 (List.mem_cons_of_mem k hk2))

/-- C3: the reconciler maps a positional key `col_i` (1-indexed, i within
[1, 10] and within the join count) to the i-th declared join, renames the
unsuffixed `col` with that join's own left suffix and `col_i` with its
right suffix (via `effectiveSuffixes`, not the state's global pair), and
deletes both original keys; every key whose numeric suffix falls outside
[1, 10] or beyond the declared join count is left completely untouched.
The inequality hypotheses rule out degenerate suffix pairs that collide
with the original key names. -/
theorem claim3_join_suffix_reconciliation :
    (∀ (α : Type) (joins : List joinClause) (i : Nat) (col lsfx rsfx : String) (v0 v1 : α),
      1 ≤ i → i ≤ 10 → i ≤ joins.length → col ≠ "" →
      parseDuplicateKey col = none →
      (lsfx, rsfx) = effectiveSuffixes (joins.getD (i - 1) default).Suffixes →
      col ++ lsfx ≠ col → col ++ rsfx ≠ col →
      col ++ lsfx ≠ col ++ "_" ++ toString i →
      col ++ rsfx ≠ col ++ "_" ++ toString i →
      col ++ lsfx ≠ col ++ rsfx →
      applyJoinSuffixesRow joins [(col, v0), (col ++ "_" ++ toString i, v1)] =
        [(col ++ lsfx, v0), (col ++ rsfx, v1)]) ∧
    (∀ (α : Type) (joins : List joinClause) (row : Row α),
      (∀ p ∈ row, ¬ eligibleKey joins p.1) → applyJoinSuffixesRow joins row = row) := by
  constructor
  · intro α joins i col lsfx rsfx v0 v1 h1 h10 hlen hcol hnp hsfx hL hR hLk hRk hLR
    have hund : ("_" ++ toString i : String) ≠ "" := by
      apply string_ne_empty_of_data
      show ('_' :: (toString i).data) ≠ []
      simp
    have hkey : col ≠ col ++ "_" ++ toString i := by
      rw [String.append_assoc]
      intro h
      exact string_append_ne col ("_" ++ toString i) hund h.symm
    have hparse := parse_roundtrip col hcol i h1 h10
    have hlt : ¬ (joins.length ≤ i - 1) := by omega
    have hstep1 : suffixStep joins ([(col, v0), (col ++ "_" ++ toString i, v1)], []) col
        = ([(col, v0), (col ++ "_" ++ toString i, v1)], []) := by
      simp [suffixStep, hnp]
    have e1 : rowLookup [(col, v0), (col ++ "_" ++ toString i, v1)]
        (col ++ "_" ++ toString i) = some v1 := by simp [rowLookup, hkey]
    have e2 : rowLookup [(col, v0), (col ++ "_" ++ toString i, v1)] col = some v0 := by
      simp [rowLookup]
    have hstep2 : suffixStep joins ([(col, v0), (col ++ "_" ++ toString i, v1)], [])
          (col ++ "_" ++ toString i)
        = ([(col, v0), (col ++ lsfx, v0), (col ++ rsfx, v1)], [col]) := by
      simp only [suffixStep, hparse]
      rw [if_neg hlt]
      simp only [e1, e2, ← hsfx]
      simp [rowInsert, rowErase, Ne.symm hL, Ne.symm hR, Ne.symm hLk, Ne.symm hRk,
        hLR, hkey, hLk, hRk]
    simp only [applyJoinSuffixesRow, List.map_cons, List.map_nil, List.foldl_cons,
      List.foldl_nil, hstep1, hstep2]
    simp [rowErase, hL, hR]
  · intro α joins row hk
    simp only [applyJoinSuffixesRow]
    rw [suffix_fold_id joins (row.map (fun p => p.1)) (row, [])
      (by intro k hkk
          obtain ⟨p, hp, hpk⟩ := List.mem_map.mp hkk
          exact hpk ▸ hk p hp)]
    rfl

/-- C3 witness: one join with the custom suffix pair `("_l", "_r")`, the
collision on `k`, and the untouched incidental column `k_2025`. -/
theorem claim3_witness :
    applyJoinSuffixesRow (α := GoVal)
        [{ OtherTable := "u", On := "c", jtype := .inner, SubQuery := "s",
           Suffixes := ("_l", "_r") }]
        [("k", .int 1), ("k" ++ "_" ++ toString 1, .int 2)] =
      [("k" ++ "_l", .int 1), ("k" ++ "_r", .int 2)] ∧
    applyJoinSuffixesRow (α := GoVal)
        [{ OtherTable := "u", On := "c", jtype := .inner, SubQuery := "s",
           Suffixes := ("_l", "_r") }]
        [("k_2025", .int 5)] = [("k_2025", .int 5)] := by
  constructor
  · exact claim3_join_suffix_reconciliation.1 GoVal _ 1 "k" "_l" "_r" (.int 1) (.int 2)
      (by decide) (by decide) (by decide) (by decide) (by decide) (by decide)
      (by decide) (by decide) (by decide) (by decide) (by decide)
  · exact claim3_join_suffix_reconciliation.2 GoVal _ [("k_2025", .int 5)] (by decide)

/-! ### C6: the final projection is a hard failure -/

theorem mem_rowInsert {α : Type} (r : Row α) (k : String) (v : α) (p : String × α) :
    p ∈ rowInsert r k v → p = (k, v) ∨ p ∈ r := by
  induction r with
  | nil => intro hp; simpa [rowInsert] using hp
  | cons q rest ih =>
    obtain ⟨a, b⟩ := q
    intro hp
    by_cases h : a = k
    · simp only [rowInsert, if_pos h] at hp
      rcases List.mem_cons.mp hp with hp | hp
      · exact Or.inl hp
      · exact Or.inr (List.mem_cons_of_mem (a, b) hp)
    · simp only [rowInsert, if_neg h] at hp
      rcases List.mem_cons.mp hp with hp | hp
      · exact Or.inr (by simp [hp])
      · rcases ih hp with hh | hh
        · exact Or.inl hh
        · exact Or.inr (List.mem_cons_of_mem (a, b) hh)

theorem selStep_error {α : Type} (row : Row α) (cols : List String) (e : String) :
    cols.foldl (selStep row) (.error e) = .error e := by
  induction cols with
  | nil => rfl
  | cons c cs ih => simpa [selStep] using ih

theorem selStep_fold_ok {α : Type} (row : Row α) :
    ∀ (cols : List String) (acc out : Row α),
    cols.foldl (selStep row) (.ok acc) = .ok out →
    (∀ col ∈ cols, ∃ key, resolveRowKey row col = some key) ∧
    (∀ p ∈ out, p ∈ acc ∨
      ∃ col ∈ cols, resolveRowKey row col = some p.1 ∧ rowLookup row p.1 = some p.2) := by
  intro cols
  induction cols with
  | nil =>
    intro acc out h
    simp only [List.foldl_nil, Except.ok.injEq] at h
    subst h
    exact ⟨by simp, fun p hp => Or.inl hp⟩
  | cons c cs ih =>
    intro acc out h
    simp only [List.foldl_cons] at h
    cases hres : resolveRowKey row c with
    | none =>
      rw [show selStep row (.ok acc) c = .error ("column " ++ c ++ " not found") from by
        simp [selStep, hres]] at h
      rw [selStep_error] at h
      exact absurd h (by simp)
    | some key =>
      cases hlook : rowLookup row key with
      | some v =>
        rw [show selStep row (.ok acc) c = .ok (rowInsert acc key v) from by
          simp [selStep, hres, hlook]] at h
        obtain ⟨ih1, ih2⟩ := ih (rowInsert acc key v) out h
        constructor
        · intro col hcol
          rcases List.mem_cons.mp hcol with hcol | hcol
          · exact ⟨key, hcol ▸ hres⟩
          · exact ih1 col hcol
        · intro p hp
          rcases ih2 p hp with hq | ⟨col, hcol, hc1, hc2⟩
          · rcases mem_rowInsert acc key v p hq with hq | hq
            · refine Or.inr ⟨c, List.mem_cons_self c cs, ?_, ?_⟩
              · rw [hres, hq]
              · rw [hq]
                simpa using hlook
            · exact Or.inl hq
          · exact Or.inr ⟨col, List.mem_cons_of_mem c hcol, hc1, hc2⟩
      | none =>
        rw [show selStep row (.ok acc) c = .ok acc from by simp [selStep, hres, hlook]] at h
        obtain ⟨ih1, ih2⟩ := ih acc out h
        constructor
        · intro col hcol
          rcases List.mem_cons.mp hcol with hcol | hcol
          · exact ⟨key, hcol ▸ hres⟩
          · exact ih1 col hcol
        · intro p hp
          rcases ih2 p hp with hq | ⟨col, hcol, hc1, hc2⟩
          · exact Or.inl hq
          · exact Or.inr ⟨col, List.mem_cons_of_mem c hcol, hc1, hc2⟩

theorem selStep_fold_err {α : Type} (row : Row α) :
    ∀ (cols : List String) (acc : Row α) (col : String),
    col ∈ cols → resolveRowKey row col = none →
    ∃ e, cols.foldl (selStep row) (.ok acc) = .error e := by
  intro cols
  induction cols with
  | nil => intro acc col hcol _; exact absurd hcol (by simp)
  | cons c cs ih =>
    intro acc col hcol hres
    cases hc : resolveRowKey row c with
    | none =>
      refine ⟨"column " ++ c ++ " not found", ?_⟩
      simp only [List.foldl_cons]
      rw [show selStep row (.ok acc) c = .error ("column " ++ c ++ " not found") from by
        simp [selStep, hc]]
      exact selStep_error row cs _
    | some key =>
      have hcs : col ∈ cs := by
        rcases List.mem_cons.mp hcol with h | h
        · subst h; rw [hc] at hres; exact absurd hres (by simp)
        · exact h
      cases hlook : rowLookup row key with
      | some v =>
        obtain ⟨e, he⟩ := ih (rowInsert acc key v) col hcs hres
        refine ⟨e, ?_⟩
        simp only [List.foldl_cons]
        rw [show selStep row (.ok acc) c = .ok (rowInsert acc key v) from by
          simp [selStep, hc, hlook]]
        exact he
      | none =>
        obtain ⟨e, he⟩ := ih acc col hcs hres
        refine ⟨e, ?_⟩
        simp only [List.foldl_cons]
        rw [show selStep row (.ok acc) c = .ok acc from by simp [selStep, hc, hlook]]
        exact he

/-- C6: with a non-empty explicit selection, a successfully transformed
row is a fresh row whose every entry comes from resolving a selected
column against the reconciled row (exact name, dotted tail, or suffix
variants), and every selected column did resolve; a selected column that
does not resolve makes the whole row transformation — and with it the
whole materialization — fail with an error, with no row set returned. -/
theorem claim6_final_projection :
    (∀ (α : Type) (q : queryState) (row row2 : Row α),
      q.selectCols ≠ [] →
      transformRow q row = .ok row2 →
      (∀ col ∈ q.selectCols, ∃ key,
        resolveRowKey (applyDropsRow q.drops (applyRenameRow q.renameOrder
          (applyJoinSuffixesRow q.joins row))) col = some key) ∧
      (∀ p ∈ row2, ∃ col ∈ q.selectCols,
        resolveRowKey (applyDropsRow q.drops (applyRenameRow q.renameOrder
          (applyJoinSuffixesRow q.joins row))) col = some p.1 ∧
        rowLookup (applyDropsRow q.drops (applyRenameRow q.renameOrder
          (applyJoinSuffixesRow q.joins row))) p.1 = some p.2)) ∧
    (∀ (α : Type) (q : queryState) (row : Row α) (col : String),
      q.selectCols ≠ [] → col ∈ q.selectCols →
      resolveRowKey (applyDropsRow q.drops (applyRenameRow q.renameOrder
        (applyJoinSuffixesRow q.joins row))) col = none →
      ∃ e, transformRow q row = .error e) ∧
    (∀ (α : Type) (q : queryState) (rows : List (Row α)) (row : Row α),
      row ∈ rows → (∃ e, transformRow q row = .error e) →
      ∃ e, transformRows q rows = .error e) ∧
    (∀ (α : Type) (df : DataFrame) (limit : Option Nat)
      (engine : String → Except String (List (Row α))) (rows : List (Row α)) (e : String),
      df.err = none →
      engine (compileSQL (buildQueryState df) limit) = .ok rows →
      transformRows (buildQueryState df) rows = .error e →
      executeModel df limit engine = .error e) := by
  refine ⟨?_, ?_, ?_, ?_⟩
  · intro α q row row2 hne htr
    rw [show transformRow q row = buildSelectedRow (applyDropsRow q.drops
        (applyRenameRow q.renameOrder (applyJoinSuffixesRow q.joins row))) q.selectCols from by
      simp [transformRow, hne]] at htr
    obtain ⟨ha, hb⟩ := selStep_fold_ok _ q.selectCols [] row2 htr
    exact ⟨ha, fun p hp => (hb p hp).resolve_left (by simp)⟩
  · intro α q row col hne hcol hres
    obtain ⟨e, he⟩ := selStep_fold_err (applyDropsRow q.drops (applyRenameRow q.renameOrder
      (applyJoinSuffixesRow q.joins row))) q.selectCols [] col hcol hres
    refine ⟨e, ?_⟩
    rw [show transformRow q row = buildSelectedRow (applyDropsRow q.drops
        (applyRenameRow q.renameOrder (applyJoinSuffixesRow q.joins row))) q.selectCols from by
      simp [transformRow, hne]]
    exact he
  · intro α q rows row hmem herr
    induction rows with
    | nil => exact absurd hmem (by simp)
    | cons r rest ih =>
      rcases List.mem_cons.mp hmem with h | h
      · subst h
        obtain ⟨e, he⟩ := herr
        exact ⟨e, by simp [transformRows, he]⟩
      · cases htr : transformRow q r with
        | error e => exact ⟨e, by simp [transformRows, htr]⟩
        | ok r2 =>
          obtain ⟨e, he⟩ := ih h
          exact ⟨e, by simp [transformRows, htr, he]⟩
  · intro α df limit engine rows e hdf heng htr
    simp [executeModel, hdf, heng, htr]

/-- C6 witness: a concrete selection where `score` resolves but `missing`
does not. -/
theorem claim6_witness :
    (∃ e, transformRow (α := GoVal) { newQueryState "t" [] with selectCols := ["missing"] }
      [("name", .str "x")] = .error e) ∧
    (∃ e, transformRows (α := GoVal) { newQueryState "t" [] with selectCols := ["missing"] }
      [[("name", .str "x")]] = .error e) := by
  have h2 := claim6_final_projection.2.1 GoVal
    { newQueryState "t" [] with selectCols := ["missing"] }
    [("name", GoVal.str "x")] "missing" (by decide) (by decide) (by decide)
  refine ⟨h2, ?_⟩
  exact claim6_final_projection.2.2.1 GoVal
    { newQueryState "t" [] with selectCols := ["missing"] }
    [[("name", GoVal.str "x")]] [("name", GoVal.str "x")] (by decide) h2

/-! ### C9: materialization ignores the hidden shared state -/

theorem eq_up_to_warnings (a b : queryState) (h : stripWarn a = stripWarn b) :
    b = { a with warnings := b.warnings } := by
  cases a
  cases b
  simp only [stripWarn, queryState.mk.injEq] at h ⊢
  simp_all

theorem foldl_warnInv {β : Type} (f : queryState → β → queryState)
    (hf : ∀ q w b, stripWarn (f { q with warnings := w } b) = stripWarn (f q b)) :
    ∀ (l : List β) (q : queryState) (w : List String),
    stripWarn (l.foldl f { q with warnings := w }) = stripWarn (l.foldl f q) := by
  intro l
  induction l with
  | nil =>
    intro q w
    simp [stripWarn]
  | cons b bs ih =>
    intro q w
    simp only [List.foldl_cons]
    have h2 := eq_up_to_warnings (f q b) (f { q with warnings := w } b) (hf q w b).symm
    rw [h2]
    exact ih (f q b) _

theorem dropStep_warnInv (q : queryState) (w : List String) (c : String) :
    stripWarn (dropStep { q with warnings := w } c) = stripWarn (dropStep q c) := by
  cases q
  simp only [dropStep, dropTargetName, warnAdd, stripWarn]
  split_ifs <;> simp

theorem renameStep_warnInv (q : queryState) (w : List String) (kv : String × String) :
    stripWarn (renameStep { q with warnings := w } kv) = stripWarn (renameStep q kv) := by
  cases q
  simp only [renameStep, resolveOriginalColumn, resolveCurrentColumn, warnAdd, stripWarn]
  split_ifs <;> simp

theorem dropNaStep_warnInv (q : queryState) (w : List String) (c : String) :
    stripWarn ({ q with warnings := w, filters := ({ q with warnings := w } : queryState).filters ++
        [resolveOriginalColumn { q with warnings := w } c ++ " IS NOT NULL"] } : queryState) =
      stripWarn { q with filters := q.filters ++ [resolveOriginalColumn q c ++ " IS NOT NULL"] } := by
  cases q
  rfl

theorem applyOp_warnInv (op : sqlOp) (q : queryState) (w : List String) :
    stripWarn (applyOp op { q with warnings := w }) = stripWarn (applyOp op q) := by
  cases op with
  | filter expr => cases q; rfl
  | select cols => cases q; rfl
  | drop cols =>
    have hfold := foldl_warnInv dropStep dropStep_warnInv cols q w
    have h2 := eq_up_to_warnings (cols.foldl dropStep q)
      (cols.foldl dropStep { q with warnings := w }) hfold.symm
    simp only [applyOp, applyDrop]
    rw [h2]
    cases cols.foldl dropStep q
    simp only [stripWarn]
    split_ifs <;> simp
  | rename mapping =>
    simp only [applyOp, applyRenameOp]
    exact foldl_warnInv renameStep renameStep_warnInv mapping q w
  | mutate col expr =>
    cases q
    simp only [applyOp, applyMutate, resolveCurrentColumn, stripWarn]
    split_ifs <;> simp
  | sort col asc => cases q; rfl
  | cast col dtype =>
    cases q
    simp only [applyOp, applyCast, resolveOriginalColumn, resolveCurrentColumn,
      columnInSelection, warnAdd, stripWarn]
    split_ifs <;> simp
  | dropNa cols =>
    simp only [applyOp, applyDropNa]
    exact foldl_warnInv _ (fun q w c => by cases q; rfl) cols q w
  | fillNa col value =>
    cases q
    simp only [applyOp, applyFillNa, resolveOriginalColumn, resolveCurrentColumn,
      columnInSelection, warnAdd, stripWarn]
    split_ifs <;> simp
  | join aliasName subquery onCond jt sfx =>
    cases q
    simp only [applyOp, applyJoin, stripWarn]
    split_ifs <;> simp

theorem buildQueryState_warnInv (src : String) (ops : List sqlOp) (err : Option String)
    (w1 w2 : List String) (c1 c2 : Nat) :
    stripWarn (buildQueryState ⟨src, ops, err, w1, c1⟩) =
      stripWarn (buildQueryState ⟨src, ops, err, w2, c2⟩) := by
  have h1 : (newQueryState (tableNameFromPath src) w1) =
      { newQueryState (tableNameFromPath src) w2 with warnings := w1 } := rfl
  simp only [buildQueryState, h1]
  exact foldl_warnInv (fun st op => applyOp op st)
    (fun q w op => applyOp_warnInv op q w) ops (newQueryState (tableNameFromPath src) w2) w1

theorem compileSQL_warnInv (a b : queryState) (h : stripWarn a = stripWarn b)
    (limit : Option Nat) : compileSQL a limit = compileSQL b limit := by
  rw [eq_up_to_warnings a b h]
  cases a
  rfl

theorem transformRows_warnInv {α : Type} (a b : queryState) (h : stripWarn a = stripWarn b)
    (rows : List (Row α)) : transformRows a rows = transformRows b rows := by
  rw [eq_up_to_warnings a b h]
  induction rows with
  | nil => rfl
  | cons r rest ih =>
    have hrow : transformRow { a with warnings := b.warnings } r = transformRow a r := by
      cases a
      rfl
    simp only [transformRows, hrow, ih]

/-- C9: repeated materialization is referentially transparent — the
compiled SQL and the full execution result (for any engine oracle) are
functions of the handle's source path, operation list and deferred error
alone, with no dependence on the mutable shared state (the warning bag
contents or the alias counter) left behind by earlier calls. -/
theorem claim9_materialization_deterministic (α : Type) (src : String) (ops : List sqlOp)
    (err : Option String) (w1 w2 : List String) (c1 c2 : Nat) (limit : Option Nat)
    (engine : String → Except String (List (Row α))) :
    compileSQL (buildQueryState ⟨src, ops, err, w1, c1⟩) limit =
      compileSQL (buildQueryState ⟨src, ops, err, w2, c2⟩) limit ∧
    executeModel ⟨src, ops, err, w1, c1⟩ limit engine =
      executeModel ⟨src, ops, err, w2, c2⟩ limit engine := by
  have hst := buildQueryState_warnInv src ops err w1 w2 c1 c2
  have hsql := compileSQL_warnInv _ _ hst limit
  refine ⟨hsql, ?_⟩
  cases err with
  | some e => rfl
  | none =>
    simp only [executeModel, hsql]
    cases engine (compileSQL (buildQueryState ⟨src, ops, none, w2, c2⟩) limit) with
    | error e => rfl
    | ok rows => exact transformRows_warnInv _ _ hst rows

/-! ### C5: the identifier rewriter on decomposed expressions -/

theorem tokRewrite_cons_nil (h : String → String) (a : Char) (as : List Char) :
    tokRewrite h (a :: as) [] = (h ⟨a :: as⟩).data := rfl

theorem tokRewrite_nil_cons (h : String → String) (c : Char) (cs : List Char) :
    tokRewrite h [] (c :: cs) =
      if isIdentStart c then tokRewrite h [c] cs else c :: tokRewrite h [] cs := rfl

theorem tokRewrite_cons_cons (h : String → String) (a : Char) (as : List Char)
    (c : Char) (cs : List Char) :
    tokRewrite h (a :: as) (c :: cs) =
      if isIdentCont c then tokRewrite h ((a :: as) ++ [c]) cs
      else (h ⟨a :: as⟩).data ++ c :: tokRewrite h [] cs := rfl

theorem identStart_cont (c : Char) (h : isIdentStart c = true) : isIdentCont c = true := by
  simp only [isIdentStart, isIdentCont] at h ⊢
  rcases (by simpa using h : c.isAlpha = true ∨ c = '_') with h | h <;> simp [h]

theorem tokRewrite_run (h : String → String) (run : List Char) :
    ∀ (a : Char) (as : List Char) (rest : List Char),
    (∀ c ∈ run, isIdentCont c = true) →
    (rest = [] ∨ ∃ c cs, rest = c :: cs ∧ isIdentCont c = false) →
    tokRewrite h (a :: as) (run ++ rest) =
      (h ⟨(a :: as) ++ run⟩).data ++
        (match rest with
          | [] => []
          | c :: cs => c :: tokRewrite h [] cs) := by
  induction run with
  | nil =>
    intro a as rest _ hrest
    rcases hrest with hrest | ⟨c, cs, hrest, hc⟩
    · subst hrest
      simp [tokRewrite_cons_nil]
    · subst hrest
      simp [tokRewrite_cons_cons, hc]
  | cons r rs ih =>
    intro a as rest hrun hrest
    have hr : isIdentCont r = true := hrun r (List.mem_cons_self r rs)
    have hrs : ∀ c ∈ rs, isIdentCont c = true :=
      fun c hc => hrun c (List.mem_cons_of_mem r hc)
    simp only [List.cons_append, tokRewrite_cons_cons, hr, if_true]
    rw [ih a (as ++ [r]) rest hrs hrest]
    congr 3
    simp

theorem isIdentString_elim (s : String) (h : isIdentString s = true) :
    ∃ c0 cs0, s.data = c0 :: cs0 ∧ isIdentStart c0 = true ∧
      ∀ x ∈ cs0, isIdentCont x = true := by
  cases hd : s.data with
  | nil => simp [isIdentString, hd] at h
  | cons c0 cs0 =>
    simp only [isIdentString, hd, Bool.and_eq_true, List.all_eq_true] at h
    exact ⟨c0, cs0, rfl, h.1, h.2⟩

theorem validPieces_tail (p : Piece) (rest : List Piece)
    (hv : validPieces (p :: rest) = true) : validPieces rest = true := by
  cases p with
  | sym c =>
    simp only [validPieces, Bool.and_eq_true] at hv
    exact hv.2
  | ident s =>
    cases rest with
    | nil => rfl
    | cons p2 rest2 =>
      cases p2 with
      | ident s2 => simp [validPieces] at hv
      | sym c2 =>
        simp only [validPieces, Bool.and_eq_true] at hv
        simp only [validPieces, Bool.and_eq_true]
        exact hv.2

theorem tokRewrite_render (h : String → String) :
    ∀ (ps : List Piece), validPieces ps = true →
    tokRewrite h [] (renderPiecesData ps) = renderPiecesData (ps.map (pieceSub h)) := by
  intro ps
  induction ps with
  | nil => intro _; rfl
  | cons p rest ih =>
    intro hv
    have hvrest := validPieces_tail p rest hv
    cases p with
    | sym c =>
      have hc : isIdentCont c = false := by
        simp only [validPieces, Bool.and_eq_true, Bool.not_eq_true'] at hv
        exact hv.1
      have hcs : isIdentStart c = false := by
        cases hs : isIdentStart c with
        | false => rfl
        | true => rw [identStart_cont c hs] at hc; exact absurd hc (by simp)
      simp only [renderPiecesData, List.map_cons, pieceSub, tokRewrite_nil_cons, hcs,
        if_false, Bool.false_eq_true]
      rw [ih hvrest]
    | ident s =>
      have hident : isIdentString s = true := by
        cases rest with
        | nil => simpa [validPieces] using hv
        | cons p2 rest2 =>
          cases p2 with
          | ident s2 => simp [validPieces] at hv
          | sym c2 =>
            simp only [validPieces, Bool.and_eq_true] at hv
            exact hv.1
      obtain ⟨c0, cs0, hdata, hc0, hcs0⟩ := isIdentString_elim s hident
      have hnostart : renderPiecesData rest = [] ∨
          ∃ c cs, renderPiecesData rest = c :: cs ∧ isIdentCont c = false := by
        cases rest with
        | nil => exact Or.inl rfl
        | cons p2 rest2 =>
          cases p2 with
          | ident s2 => simp [validPieces] at hv
          | sym c2 =>
            refine Or.inr ⟨c2, renderPiecesData rest2, rfl, ?_⟩
            simp only [validPieces, Bool.and_eq_true, Bool.not_eq_true'] at hvrest
            exact hvrest.1
      simp only [renderPiecesData, hdata, List.cons_append, List.map_cons, pieceSub]
      rw [tokRewrite_nil_cons, if_pos hc0]
      rw [tokRewrite_run h cs0 c0 [] (renderPiecesData rest) hcs0 hnostart]
      have hs2 : (⟨[c0] ++ cs0⟩ : String) = s := by
        show (⟨c0 :: cs0⟩ : String) = s
        rw [← hdata]
      rw [hs2]
      congr 1
      have ihr := ih hvrest
      rcases hnostart with h0 | ⟨c, cs, h0, hc⟩
      · rw [h0] at ihr ⊢
        exact ihr
      · rw [h0] at ihr ⊢
        have hcs : isIdentStart c = false := by
          cases hs : isIdentStart c with
          | false => rfl
          | true => rw [identStart_cont c hs] at hc; exact absurd hc (by simp)
        rw [tokRewrite_nil_cons, if_neg (by simp [hcs])] at ihr
        exact ihr

theorem validPieces_map (f : String → String)
    (hf : ∀ s, isIdentString s = true → isIdentString (f s) = true) :
    ∀ (ps : List Piece), validPieces ps = true → validPieces (ps.map (pieceSub f)) = true := by
  intro ps
  induction ps with
  | nil => intro _; rfl
  | cons p rest ih =>
    intro hv
    have hvrest := validPieces_tail p rest hv
    cases p with
    | sym c =>
      have hc : isIdentCont c = false := by
        simp only [validPieces, Bool.and_eq_true, Bool.not_eq_true'] at hv
        exact hv.1
      simp only [List.map_cons, pieceSub, validPieces, Bool.and_eq_true, Bool.not_eq_true']
      exact ⟨hc, ih hvrest⟩
    | ident s =>
      cases rest with
      | nil =>
        have hident : isIdentString s = true := by simpa [validPieces] using hv
        simp [validPieces, hf s hident]
      | cons p2 rest2 =>
        cases p2 with
        | ident s2 => simp [validPieces] at hv
        | sym c2 =>
          have hident : isIdentString s = true := by
            simp only [validPieces, Bool.and_eq_true] at hv
            exact hv.1
          simp only [List.map_cons, pieceSub, validPieces, Bool.and_eq_true]
          refine ⟨hf s hident, ?_⟩
          have := ih hvrest
          simpa [validPieces] using this

theorem pieceSub_comp (f g : String → String) (p : Piece) :
    pieceSub g (pieceSub f p) = pieceSub (fun t => g (f t)) p := by
  cases p <;> rfl

theorem rewrite_fold (entries : List renameEntry) :
    ∀ (ps : List Piece), validPieces ps = true →
    (∀ e ∈ entries, isIdentString e.old = true) →
    rewriteExpressionWithOriginalNames (renderPieces ps) entries =
      renderPieces (ps.map (pieceSub (chainSubst entries))) := by
  induction entries with
  | nil =>
    intro ps _ _
    have : ps.map (pieceSub (chainSubst [])) = ps := by
      have hid : pieceSub (chainSubst []) = fun p => p := by
        funext p; cases p <;> rfl
      rw [hid]
      simp
    rw [this]
    rfl
  | cons e es ih =>
    intro ps hv H1
    have H1e : isIdentString e.old = true := H1 e (List.mem_cons_self e es)
    have H1es : ∀ e2 ∈ es, isIdentString e2.old = true :=
      fun e2 he2 => H1 e2 (List.mem_cons_of_mem e he2)
    simp only [rewriteExpressionWithOriginalNames, List.foldl_cons]
    by_cases hskip : e.new = e.old ∨ e.new = ""
    · rw [show rewriteStep (renderPieces ps) e.old e.new = renderPieces ps from by
        simp [rewriteStep, hskip]]
      have := ih ps hv H1es
      simp only [rewriteExpressionWithOriginalNames] at this
      rw [this]
      have hfun : ps.map (pieceSub (chainSubst es)) =
          ps.map (pieceSub (chainSubst (e :: es))) := by
        apply List.map_congr_left
        intro p _
        cases p with
        | sym c => rfl
        | ident s =>
          simp only [pieceSub, chainSubst, List.foldl_cons]
          rw [show substEntry e s = s from by simp [substEntry, hskip]]
      rw [hfun]
    · have hsub : rewriteStep (renderPieces ps) e.old e.new =
          renderPieces (ps.map (pieceSub (fun tok => if tok = e.new then e.old else tok))) := by
        simp only [rewriteStep, if_neg hskip]
        show (⟨tokRewrite _ [] (renderPiecesData ps)⟩ : String) = _
        rw [tokRewrite_render _ ps hv]
        rfl
      rw [hsub]
      have hf1 : ∀ s, isIdentString s = true →
          isIdentString (if s = e.new then e.old else s) = true := by
        intro s hs
        by_cases h : s = e.new
        · simpa [h] using H1e
        · simpa [h] using hs
      have hv2 := validPieces_map _ hf1 ps hv
      have := ih (ps.map (pieceSub (fun tok => if tok = e.new then e.old else tok))) hv2 H1es
      simp only [rewriteExpressionWithOriginalNames] at this
      rw [this, List.map_map]
      congr 1
      apply List.map_congr_left
      intro p _
      simp only [Function.comp_apply]
      cases p with
      | sym c => rfl
      | ident s =>
        simp only [pieceSub, chainSubst, List.foldl_cons]
        rw [show substEntry e s = (if s = e.new then e.old else s) from by
          simp [substEntry, hskip]]

theorem chainSubst_fixed (entries : List renameEntry) :
    ∀ (t : String), (∀ e ∈ entries, e.new ≠ t) → chainSubst entries t = t := by
  induction entries with
  | nil => intro t _; rfl
  | cons e es ih =>
    intro t h
    have he : e.new ≠ t := h e (List.mem_cons_self e es)
    simp only [chainSubst, List.foldl_cons]
    rw [show substEntry e t = t from by
      simp only [substEntry]
      split_ifs with h1 h2
      · rfl
      · exact absurd h2.symm he
      · rfl]
    exact ih t (fun e2 he2 => h e2 (List.mem_cons_of_mem e he2))

theorem chainSubst_eq_subOriginal (entries : List renameEntry) :
    ∀ (t : String), (∀ e ∈ entries, ∀ e2 ∈ entries, e.old ≠ e2.new) →
    chainSubst entries t = subOriginal entries t := by
  induction entries with
  | nil => intro t _; rfl
  | cons e es ih =>
    intro t H2
    have H2es : ∀ a ∈ es, ∀ b ∈ es, a.old ≠ b.new := fun a ha b hb =>
      H2 a (List.mem_cons_of_mem e ha) b (List.mem_cons_of_mem e hb)
    simp only [chainSubst, List.foldl_cons, subOriginal, List.find?]
    by_cases hact : subActive t e = true
    · rw [hact]
      have ⟨h1, h2, h3⟩ : e.new = t ∧ ¬ e.new = e.old ∧ ¬ e.new = "" := by
        simpa [subActive] using hact
      rw [show substEntry e t = e.old from by
        simp only [substEntry]
        rw [if_neg (by tauto), if_pos h1.symm]]
      exact chainSubst_fixed es e.old
        (fun e2 he2 => Ne.symm (H2 e (List.mem_cons_self e es) e2 (List.mem_cons_of_mem e he2)))
    · rw [Bool.not_eq_true] at hact
      rw [hact]
      have hnosub : substEntry e t = t := by
        have : ¬ (e.new = t ∧ ¬ e.new = e.old ∧ ¬ e.new = "") := by
          simpa [subActive] using hact
        simp only [substEntry]
        split_ifs with h1 h2
        · rfl
        · exact absurd ⟨h2.symm, fun hh => h1 (Or.inl hh), fun hh => h1 (Or.inr hh)⟩ this
        · rfl
      rw [hnosub]
      exact ih t H2es

/-- C5 (amended): Mutate resolves the target to its current identity,
appends the mutation with the expression rewritten token-wise — each
identifier equal to the first rename entry whose current name matches it
is replaced by that entry's original name — provided no entry's original
name is itself another entry's current name (rename chains break this,
see the counterexample) and the entries' original names are plain
identifiers; the target is appended to a non-empty projection that lacks
it, everything else is unchanged, and the rewritten expression surfaces
in the compiled projection aliased to the mutation's own column name. -/
theorem claim5_mutate_rewrite (q : queryState) (col : String) (ps : List Piece)
    (hv : validPieces ps = true)
    (H1 : ∀ e ∈ q.renameOrder, isIdentString e.old = true)
    (H2 : ∀ e ∈ q.renameOrder, ∀ e2 ∈ q.renameOrder, e.old ≠ e2.new) :
    (applyMutate col (renderPieces ps) q).mutations = q.mutations ++
      [⟨normalizeColumnName (resolveCurrentColumn q col),
        renderPieces (ps.map (pieceSub (subOriginal q.renameOrder)))⟩] ∧
    (applyMutate col (renderPieces ps) q).selectCols =
      (if q.selectCols ≠ [] ∧
          ¬ containsString q.selectCols (normalizeColumnName (resolveCurrentColumn q col))
        then q.selectCols ++ [normalizeColumnName (resolveCurrentColumn q col)]
        else q.selectCols) ∧
    (applyMutate col (renderPieces ps) q).renameOrder = q.renameOrder ∧
    (applyMutate col (renderPieces ps) q).renames = q.renames ∧
    (applyMutate col (renderPieces ps) q).casts = q.casts ∧
    (applyMutate col (renderPieces ps) q).fillNAs = q.fillNAs ∧
    (applyMutate col (renderPieces ps) q).drops = q.drops ∧
    (applyMutate col (renderPieces ps) q).filters = q.filters ∧
    (applyMutate col (renderPieces ps) q).warnings = q.warnings ∧
    (renderPieces (ps.map (pieceSub (subOriginal q.renameOrder))) ++ " AS " ++
        normalizeColumnName (resolveCurrentColumn q col))
      ∈ buildSelectExpressions (applyMutate col (renderPieces ps) q) := by
  have hrw : rewriteExpressionWithOriginalNames (renderPieces ps) q.renameOrder =
      renderPieces (ps.map (pieceSub (subOriginal q.renameOrder))) := by
    rw [rewrite_fold q.renameOrder ps hv H1]
    congr 1
    apply List.map_congr_left
    intro p _
    cases p with
    | sym c => rfl
    | ident s =>
      simp only [pieceSub]
      rw [chainSubst_eq_subOriginal q.renameOrder s H2]
  have hmut : (applyMutate col (renderPieces ps) q).mutations = q.mutations ++
      [⟨normalizeColumnName (resolveCurrentColumn q col),
        renderPieces (ps.map (pieceSub (subOriginal q.renameOrder)))⟩] := by
    simp only [applyMutate, hrw]
    split_ifs <;> rfl
  refine ⟨hmut, ?_, ?_, ?_, ?_, ?_, ?_, ?_, ?_, ?_⟩
  · simp only [applyMutate, hrw]
    split_ifs with h
    · rfl
    · rfl
  · simp only [applyMutate]; split_ifs <;> rfl
  · simp only [applyMutate]; split_ifs <;> rfl
  · simp only [applyMutate]; split_ifs <;> rfl
  · simp only [applyMutate]; split_ifs <;> rfl
  · simp only [applyMutate]; split_ifs <;> rfl
  · simp only [applyMutate]; split_ifs <;> rfl
  · simp only [applyMutate]; split_ifs <;> rfl
  · simp only [buildSelectExpressions]
    have hne : ([(applyMutate col (renderPieces ps) q).baseTable ++ ".*"] ++
        (applyMutate col (renderPieces ps) q).joins.map (fun j => j.OtherTable ++ ".*") ++
        (applyMutate col (renderPieces ps) q).casts.map
          (fun c => "CAST(" ++ c.Column ++ " AS " ++ c.DType ++ ") AS " ++ c.Column) ++
        (applyMutate col (renderPieces ps) q).fillNAs.map
          (fun f => "IFNULL(" ++ f.Column ++ ", " ++ literal f.Value ++ ") AS " ++ f.Column) ++
        (applyMutate col (renderPieces ps) q).mutations.map
          (fun m => m.Expr ++ " AS " ++ m.Column) ++
        (if (applyMutate col (renderPieces ps) q).inlineRenames then
          (applyMutate col (renderPieces ps) q).renames.map (fun kv => kv.1 ++ " AS " ++ kv.2)
        else []) : List String) ≠ [] := by simp
    rw [if_neg hne]
    have hmem : (renderPieces (ps.map (pieceSub (subOriginal q.renameOrder))) ++ " AS " ++
        normalizeColumnName (resolveCurrentColumn q col)) ∈
        (applyMutate col (renderPieces ps) q).mutations.map
          (fun m => m.Expr ++ " AS " ++ m.Column) := by
      rw [hmut]
      simp
    simp only [List.mem_append]
    exact Or.inl (Or.inr hmem)

/-- C5 counterexample: after `Rename({"a": "b"})` then `Rename({"c":
"a"})` the identifier `b` is the current name of the column originally
named `a` (resolveOriginalColumn agrees), yet the sequential rewriter
turns the mutation expression `b` into `c`: the second pass re-rewrites
the first pass's output, so the compiled mutation reads the column
originally named `c` instead. -/
theorem claim5_counterexample :
    (buildQueryState exampleChainRenameDF).renameOrder =
      [⟨"a", "b"⟩, ⟨"c", "a"⟩] ∧
    resolveOriginalColumn (buildQueryState exampleChainRenameDF) "b" = "a" ∧
    rewriteExpressionWithOriginalNames "b"
      (buildQueryState exampleChainRenameDF).renameOrder = "c" ∧
    (applyMutate "x" "b" (buildQueryState exampleChainRenameDF)).mutations =
      [⟨"x", "c"⟩] ∧
    ("c" : String) ≠ "a" := by
  exact ⟨by decide, by decide, by decide, by decide, by decide⟩

/-- C5 witness: one rename `a → b`, the expression `b + cnt`; the
rewriter restores `a + cnt` and the mutation lands under its own name. -/
theorem claim5_witness :
    (applyMutate "x"
      (renderPieces [.ident "b", .sym ' ', .sym '+', .sym ' ', .ident "cnt"])
      (buildQueryState exampleRenameDF)).mutations =
      (buildQueryState exampleRenameDF).mutations ++
        [⟨normalizeColumnName (resolveCurrentColumn (buildQueryState exampleRenameDF) "x"),
          renderPieces ([Piece.ident "b", .sym ' ', .sym '+', .sym ' ', .ident "cnt"].map
            (pieceSub (subOriginal (buildQueryState exampleRenameDF).renameOrder)))⟩] := by
  exact (claim5_mutate_rewrite (buildQueryState exampleRenameDF) "x"
    [.ident "b", .sym ' ', .sym '+', .sym ' ', .ident "cnt"]
    (by decide) (by decide) (by decide)).1

/-! ### C8: the explicit-join-condition matcher against the spec shape -/

theorem string_ext (a b : String) (h : a.data = b.data) : a = b :=
  String.ext h

theorem data_append (a b : String) : (a ++ b).data = a.data ++ b.data := rfl

theorem space_not_word (c : Char) (h : isRE2Space c = true) : isWordChar c = false := by
  simp only [isRE2Space, decide_eq_true_eq] at h
  rcases h with h | h | h | h | h <;> subst h <;> decide

theorem word_not_space (c : Char) (h : isWordChar c = true) : isRE2Space c = false := by
  cases hs : isRE2Space c with
  | false => rfl
  | true => rw [space_not_word c hs] at h; exact absurd h (by simp)

theorem space_ne_dot (c : Char) (h : isRE2Space c = true) : ¬ c = '.' := by
  intro hdot
  subst hdot
  exact absurd h (by decide)

theorem dropWhile_head_false {α : Type} (p : α → Bool) :
    ∀ (l : List α) (c : α) (cs : List α), l.dropWhile p = c :: cs → p c = false := by
  intro l
  induction l with
  | nil => intro c cs h; simp [List.dropWhile] at h
  | cons a rest ih =>
    intro c cs h
    by_cases ha : p a = true
    · rw [List.dropWhile_cons, if_pos ha] at h
      exact ih c cs h
    · rw [List.dropWhile_cons, if_neg ha] at h
      injection h with h1 _
      rw [← h1]
      simpa using ha

theorem chompW_complete (w r : List Char) (hw : w ≠ [])
    (hword : ∀ c ∈ w, isWordChar c = true)
    (hr : ∀ c cs, r = c :: cs → isWordChar c = false) :
    chompW (w ++ r) = some r := by
  cases w with
  | nil => exact absurd rfl hw
  | cons c ws =>
    simp only [List.cons_append, chompW]
    rw [if_pos (hword c (List.mem_cons_self c ws))]
    congr 1
    rw [List.dropWhile_append_of_pos (fun a ha => hword a (List.mem_cons_of_mem c ha))]
    cases r with
    | nil => rfl
    | cons c2 cs2 =>
      rw [List.dropWhile_cons, if_neg (by simp [hr c2 cs2 rfl])]

theorem chompW_sound (cl r : List Char) (h : chompW cl = some r) :
    ∃ w, cl = w ++ r ∧ w ≠ [] ∧ (∀ c ∈ w, isWordChar c = true) ∧
      (∀ c cs, r = c :: cs → isWordChar c = false) := by
  cases cl with
  | nil => simp [chompW] at h
  | cons c cs =>
    simp only [chompW] at h
    by_cases hc : isWordChar c = true
    · rw [if_pos hc] at h
      have hr : cs.dropWhile isWordChar = r := by injection h
      refine ⟨c :: cs.takeWhile isWordChar, ?_, by simp, ?_, ?_⟩
      · rw [← hr]
        simp [List.takeWhile_append_dropWhile]
      · intro x hx
        rcases List.mem_cons.mp hx with hx | hx
        · rw [hx]; exact hc
        · exact List.mem_takeWhile_imp hx
      · intro x xs hx
        rw [← hr] at hx
        exact dropWhile_head_false isWordChar cs x xs hx
    · rw [if_neg hc] at h
      exact absurd h (by simp)

theorem explicit_complete (t : String) (h : ExplicitShape t) :
    isExplicitJoinCondition t = true := by
  obtain ⟨l, sl, sr, r, ht, hl, hrq, hsl, hsr⟩ := h
  have hrhead : ∃ c cs, r.data = c :: cs ∧ isWordChar c = true := by
    rcases hrq with ⟨hne, hword⟩ | ⟨a, b, hab, ha, hb⟩
    · cases hd : r.data with
      | nil => exact absurd hd hne
      | cons c cs =>
        exact ⟨c, cs, rfl, hword c (by rw [hd]; exact List.mem_cons_self c cs)⟩
    · cases hd : a.data with
      | nil => exact absurd hd ha.1
      | cons c cs =>
        refine ⟨c, cs ++ '.' :: b.data, ?_,
          ha.2 c (by rw [hd]; exact List.mem_cons_self c cs)⟩
        rw [hab]
        show (a ++ "." ++ b).data = _
        rw [data_append, data_append, hd]
        simp
  obtain ⟨rc, rcs, hrd, hrw⟩ := hrhead
  set D : List Char := sl.data ++ '=' :: (sr.data ++ r.data) with hDdef
  have hDhead : ∀ c cs, D = c :: cs → isWordChar c = false := by
    intro c cs hc
    rw [hDdef] at hc
    cases hsd : sl.data with
    | nil =>
      rw [hsd] at hc
      simp only [List.nil_append] at hc
      injection hc with h1 _
      rw [← h1]; decide
    | cons c0 cs0 =>
      rw [hsd] at hc
      simp only [List.cons_append] at hc
      injection hc with h1 _
      rw [← h1]
      exact space_not_word c0 (hsl c0 (by rw [hsd]; exact List.mem_cons_self c0 cs0))
  have hDdot : ∀ c cs, D = c :: cs → ¬ c = '.' := by
    intro c cs hc
    rw [hDdef] at hc
    cases hsd : sl.data with
    | nil =>
      rw [hsd] at hc
      simp only [List.nil_append] at hc
      injection hc with h1 _
      rw [← h1]; decide
    | cons c0 cs0 =>
      rw [hsd] at hc
      simp only [List.cons_append] at hc
      injection hc with h1 _
      rw [← h1]
      exact space_ne_dot c0 (hsl c0 (by rw [hsd]; exact List.mem_cons_self c0 cs0))
  have hstep2 : chompDotW D = D := by
    cases hD : D with
    | nil => rfl
    | cons c cs => simp [chompDotW, hDdot c cs hD]
  have hstep3 : D.dropWhile isRE2Space = '=' :: (sr.data ++ r.data) := by
    rw [hDdef, List.dropWhile_append_of_pos hsl]
    rw [List.dropWhile_cons, if_neg (by decide)]
  have hstep4 : (sr.data ++ r.data).dropWhile isRE2Space = r.data := by
    rw [List.dropWhile_append_of_pos hsr, hrd]
    rw [List.dropWhile_cons, if_neg (by simp [word_not_space rc hrw])]
  have hdata : t.data = l.data ++ D := by
    rw [ht, hDdef]
    show (l ++ sl ++ "=" ++ sr ++ r).data = _
    simp [data_append]
  have htail : ∀ r1, chompW t.data = some r1 → chompDotW r1 = D →
      isExplicitJoinCondition t = true := by
    intro r1 hc1 hc2
    simp only [isExplicitJoinCondition, hc1, hc2, hstep3, if_pos, hstep4]
    rcases hrq with ⟨hne, hword⟩ | ⟨a2, b2, hab2, ha2, hb2⟩
    · have h5 : chompW r.data = some [] := by
        rw [show r.data = r.data ++ [] from by simp]
        exact chompW_complete r.data [] hne hword (fun c cs h => absurd h (by simp))
      simp [h5, chompDotW]
    · have hrdata : r.data = a2.data ++ '.' :: b2.data := by
        rw [hab2]
        show (a2 ++ "." ++ b2).data = _
        rw [data_append, data_append]
        simp
      have h5 : chompW r.data = some ('.' :: b2.data) := by
        rw [hrdata]
        exact chompW_complete a2.data _ ha2.1 ha2.2
          (fun c cs h => by injection h with h1 _; rw [← h1]; decide)
      have h6 : chompW b2.data = some [] := by
        rw [show b2.data = b2.data ++ [] from by simp]
        exact chompW_complete b2.data [] hb2.1 hb2.2 (fun c cs h => absurd h (by simp))
      simp [h5, chompDotW, h6]
  rcases hl with ⟨hlne, hlword⟩ | ⟨a, b, hab, ha, hb⟩
  · refine htail D ?_ hstep2
    rw [hdata]
    exact chompW_complete l.data D hlne hlword hDhead
  · have hldata : l.data = a.data ++ '.' :: b.data := by
      rw [hab]
      show (a ++ "." ++ b).data = _
      rw [data_append, data_append]
      simp
    refine htail ('.' :: (b.data ++ D)) ?_ ?_
    · rw [hdata, hldata]
      rw [show (a.data ++ '.' :: b.data) ++ D = a.data ++ '.' :: (b.data ++ D) from by simp]
      exact chompW_complete a.data ('.' :: (b.data ++ D)) ha.1 ha.2
        (fun c cs h => by injection h with h1 _; rw [← h1]; decide)
    · show chompDotW ('.' :: (b.data ++ D)) = D
      simp only [chompDotW, if_pos]
      rw [chompW_complete b.data D hb.1 hb.2 hDhead]

theorem explicit_sound (t : String) (h : isExplicitJoinCondition t = true) :
    ExplicitShape t := by
  simp only [isExplicitJoinCondition] at h
  cases h1 : chompW t.data with
  | none => rw [h1] at h; exact absurd h (by simp)
  | some r1 =>
    simp only [h1] at h
    obtain ⟨w1, hw1eq, hw1ne, hw1word, hr1head⟩ := chompW_sound t.data r1 h1
    have hleft : ∃ (lS : String) (D : List Char), QualIdent lS ∧
        t.data = lS.data ++ D ∧ chompDotW r1 = D := by
      cases hr1 : r1 with
      | nil =>
        refine ⟨⟨w1⟩, [], Or.inl ⟨hw1ne, hw1word⟩, ?_, ?_⟩
        · rw [hw1eq, hr1]
        · rfl
      | cons c1 cs1 =>
        by_cases hdot : c1 = '.'
        · cases h4 : chompW cs1 with
          | some r2 =>
            obtain ⟨w2, hw2eq, hw2ne, hw2word, hr2head⟩ := chompW_sound cs1 r2 h4
            refine ⟨⟨w1⟩ ++ "." ++ ⟨w2⟩, r2,
              Or.inr ⟨⟨w1⟩, ⟨w2⟩, rfl, ⟨hw1ne, hw1word⟩, ⟨hw2ne, hw2word⟩⟩, ?_, ?_⟩
            · rw [hw1eq, hr1, hdot, hw2eq]
              show _ = ((⟨w1⟩ : String) ++ "." ++ (⟨w2⟩ : String)).data ++ r2
              rw [data_append, data_append]
              simp
            · simp [chompDotW, hdot, h4]
          | none =>
            exfalso
            rw [hr1] at h
            rw [show chompDotW (c1 :: cs1) = c1 :: cs1 from by
              simp [chompDotW, hdot, h4]] at h
            rw [show (c1 :: cs1).dropWhile isRE2Space = c1 :: cs1 from by
              rw [List.dropWhile_cons, if_neg (by rw [hdot]; decide)]] at h
            rw [hdot] at h
            simp at h
        · refine ⟨⟨w1⟩, r1, Or.inl ⟨hw1ne, hw1word⟩, by rw [hw1eq], ?_⟩
          rw [hr1]
          simp [chompDotW, hdot]
    obtain ⟨lS, D, hlq, hteq, hcd⟩ := hleft
    rw [hcd] at h
    cases h2 : D.dropWhile isRE2Space with
    | nil => rw [h2] at h; exact absurd h (by simp)
    | cons c2 r4 =>
      simp only [h2] at h
      by_cases hc2 : c2 = '='
      · rw [if_pos hc2] at h
        cases h3 : chompW (r4.dropWhile isRE2Space) with
        | none => rw [h3] at h; exact absurd h (by simp)
        | some r6 =>
          simp only [h3] at h
          have h6 : chompDotW r6 = [] := by simpa using h
          obtain ⟨w3, hw3eq, hw3ne, hw3word, hr6head⟩ :=
            chompW_sound (r4.dropWhile isRE2Space) r6 h3
          have hD : D = (D.takeWhile isRE2Space) ++ '=' :: r4 := by
            conv_lhs => rw [← List.takeWhile_append_dropWhile (p := isRE2Space) (l := D)]
            rw [h2, hc2]
          have hr4 : r4 = (r4.takeWhile isRE2Space) ++ (w3 ++ r6) := by

            conv_lhs => rw [← List.takeWhile_append_dropWhile (p := isRE2Space) (l := r4)]
            rw [hw3eq]
          have hslspace : SpaceStr ⟨D.takeWhile isRE2Space⟩ :=
            fun c hc => List.mem_takeWhile_imp hc
          have hsrspace : SpaceStr ⟨r4.takeWhile isRE2Space⟩ :=
            fun c hc => List.mem_takeWhile_imp hc
          cases hr6 : r6 with
          | nil =>
            rw [hr6] at hr4
            set SL := D.takeWhile isRE2Space with hSL
            set SR := r4.takeWhile isRE2Space with hSR
            refine ⟨lS, ⟨SL⟩, ⟨SR⟩, ⟨w3⟩,
              ?_, hlq, Or.inl ⟨hw3ne, hw3word⟩, hslspace, hsrspace⟩
            apply string_ext
            rw [hteq]
            show lS.data ++ D =
              (lS ++ (⟨SL⟩ : String) ++ "=" ++ (⟨SR⟩ : String) ++ (⟨w3⟩ : String)).data
            rw [data_append, data_append, data_append, data_append]
            rw [hD, hr4]
            simp
          | cons c6 cs6 =>
            by_cases hdot6 : c6 = '.'
            · cases h7 : chompW cs6 with
              | some r7 =>
                have hr7 : r7 = [] := by
                  rw [hr6] at h6
                  simpa [chompDotW, hdot6, h7] using h6
                obtain ⟨w4, hw4eq, hw4ne, hw4word, _⟩ := chompW_sound cs6 r7 h7
                rw [hr7, List.append_nil] at hw4eq
                rw [hr6, hdot6, hw4eq] at hr4
                set SL := D.takeWhile isRE2Space with hSL
                set SR := r4.takeWhile isRE2Space with hSR
                refine ⟨lS, ⟨SL⟩, ⟨SR⟩,
                  (⟨w3⟩ : String) ++ "." ++ (⟨w4⟩ : String),
                  ?_, hlq,
                  Or.inr ⟨⟨w3⟩, ⟨w4⟩, rfl, ⟨hw3ne, hw3word⟩, ⟨hw4ne, hw4word⟩⟩,
                  hslspace, hsrspace⟩
                apply string_ext
                rw [hteq]
                show lS.data ++ D = (lS ++ (⟨SL⟩ : String) ++ "=" ++ (⟨SR⟩ : String) ++
                  ((⟨w3⟩ : String) ++ "." ++ (⟨w4⟩ : String))).data
                rw [data_append, data_append, data_append, data_append, data_append,
                  data_append]
                rw [hD, hr4]
                simp
              | none =>
                exfalso
                rw [hr6] at h6
                rw [show chompDotW (c6 :: cs6) = c6 :: cs6 from by
                  simp [chompDotW, hdot6, h7]] at h6
                exact absurd h6 (by simp)
            · exfalso
              rw [hr6] at h6
              rw [show chompDotW (c6 :: cs6) = c6 :: cs6 from by
                simp [chompDotW, hdot6]] at h6
              exact absurd h6 (by simp)
      · rw [if_neg hc2] at h
        exact absurd h (by simp)

/-- C8 (amended): the compiler first trims surrounding whitespace from
the supplied ON-condition text; an empty or all-whitespace condition
yields an empty ON text; the trimmed text is used as-is exactly when it
matches the shape of a single binary equality between two possibly
dot-qualified identifiers — `isExplicitJoinCondition` recognizes exactly
that shape — and every other non-empty trimmed text is treated as a bare
key name and expanded to `<base>.<key> = <alias>.<key>`. -/
theorem claim8_join_condition (base : String) (j : joinClause) (t : String) :
    (trimSpaceGo j.On = "" → joinCondition base j = "") ∧
    (isExplicitJoinCondition (trimSpaceGo j.On) = true →
      joinCondition base j = trimSpaceGo j.On) ∧
    (trimSpaceGo j.On ≠ "" → isExplicitJoinCondition (trimSpaceGo j.On) = false →
      joinCondition base j = base ++ "." ++ trimSpaceGo j.On ++ " = " ++
        j.OtherTable ++ "." ++ trimSpaceGo j.On) ∧
    (isExplicitJoinCondition t = true ↔ ExplicitShape t) := by
  refine ⟨?_, ?_, ?_, ⟨explicit_sound t, explicit_complete t⟩⟩
  · intro h
    simp [joinCondition, h]
  · intro h
    have hne : trimSpaceGo j.On ≠ "" := by
      intro he
      rw [he] at h
      exact absurd h (by decide)
    simp [joinCondition, hne, h]
  · intro hne h
    simp [joinCondition, hne, h]

/-- C8 counterexample: the supplied condition text `" "` is non-empty
and does not match the binary-equality shape, so the claim demands the
bare-key expansion `t.  = u. ` — but the compiler trims it to the empty
string and emits an empty ON text, which is also not the supplied text.
Likewise `" a = b "` is neither used verbatim nor expanded: it is
trimmed. -/
theorem claim8_counterexample :
    (" " : String) ≠ "" ∧
    isExplicitJoinCondition " " = false ∧
    joinCondition "t" ⟨"u", " ", .inner, "", ("", "")⟩ = "" ∧
    ("" : String) ≠ "t" ++ "." ++ " " ++ " = " ++ "u" ++ "." ++ " " ∧
    ("" : String) ≠ " " ∧
    joinCondition "t" ⟨"u", " a = b ", .inner, "", ("", "")⟩ = "a = b" ∧
    ("a = b" : String) ≠ " a = b " := by
  exact ⟨by decide, by decide, by decide, by decide, by decide, by decide, by decide⟩

/-- C8 witness: a verbatim qualified equality, a bare-key expansion, and
the shape of `t.a=u.b`. -/
theorem claim8_witness :
    joinCondition "t" ⟨"u", "t.a = u.a", .inner, "", ("", "")⟩ = "t.a = u.a" ∧
    joinCondition "t" ⟨"u", "id", .inner, "", ("", "")⟩ =
      "t" ++ "." ++ "id" ++ " = " ++ "u" ++ "." ++ "id" ∧
    ExplicitShape "t.a=u.b" := by
  refine ⟨?_, ?_, ?_⟩
  · have h := (claim8_join_condition "t" ⟨"u", "t.a = u.a", .inner, "", ("", "")⟩
      "t.a=u.b").2.1 (by decide)
    simpa using h
  · have h := (claim8_join_condition "t" ⟨"u", "id", .inner, "", ("", "")⟩
      "t.a=u.b").2.2.1 (by decide) (by decide)
    simpa using h
  · exact (claim8_join_condition "t" ⟨"u", "id", .inner, "", ("", "")⟩
      "t.a=u.b").2.2.2.mp (by decide)

end CsvDF
